import Mathlib

/-! Pacman (`src/main.go`): shallow embedding and verified properties.

The package-level variables of `main.go` (`maze`, `player`, `ghosts`, `score`,
`numDots`, `lives`) are collected in the record `Game`; every function that
reads or writes them takes and returns a `Game`.

Modelling conventions
* A Go `string` is a sequence of bytes; a maze row is a `List Nat`, one number
  per byte.  The bytes the program tests for are named below (`'#'` is 35, ...).
* Go `int` is modelled by `Int`, whose arithmetic is Go's as long as the values
  stay in the range of `int` (`intMin` to `intMax`, 64 bits).  A theorem about
  the arithmetic on an arbitrary value of `score`, `numDots` or `lives` assumes
  that range (`isGoInt`).  In the states reached from a loaded maze every
  coordinate is bounded by the size of the maze and `numDots` is the number of
  its dots.
* An index or slice expression that would panic in Go makes the embedded
  function return `none`.
* Terminal output (`printScreen`, `moveCursor`, `fmt.Print`) and the sleeps of
  the main loop have no effect on the variables above and are left out.
-/

namespace Pacman

/-- The byte `'#'`: a wall. -/
abbrev chWall : Nat := 35
/-- The byte `'.'`: a dot. -/
abbrev chDot : Nat := 46
/-- The byte `'X'`: a power-up pill. -/
abbrev chPill : Nat := 88
/-- The byte `' '`: written by `removeDot`. -/
abbrev chSpace : Nat := 32
/-- The byte `'P'`: the player's spawn cell. -/
abbrev chPlayer : Nat := 80
/-- The byte `'G'`: a ghost's spawn cell. -/
abbrev chGhost : Nat := 71

/-- The least value of Go's `int` (64 bits): `-2^63`. -/
def intMin : Int := -9223372036854775808

/-- The greatest value of Go's `int` (64 bits): `2^63 - 1`. -/
def intMax : Int := 9223372036854775807

/-- The integer `x` is a value of Go's `int`.  On such values `x + 1`,
`x + 10` and `x - 1` computed in `Int` are what Go computes whenever the result
is again a value of `int`; outside, Go wraps around. -/
def isGoInt (x : Int) : Prop := intMin ≤ x ∧ x ≤ intMax

instance (x : Int) : Decidable (isGoInt x) := by
  unfold isGoInt; infer_instance

/-- Go type `GhostStatus` with its two constants. -/
inductive GhostStatus where
  | normal
  | blue
deriving DecidableEq, Repr

/-- Go struct `sprite`. -/
structure sprite where
  row : Int
  col : Int
  startRow : Int
  startCol : Int
deriving DecidableEq, Repr

/-- Go struct `ghost`. -/
structure ghost where
  position : sprite
  status : GhostStatus
deriving DecidableEq, Repr

/-- The package-level variables of `main.go`.  `pills` counts the
`go processPill()` statements executed so far (the goroutines launched). -/
structure Game where
  maze : List (List Nat)
  player : sprite
  ghosts : List ghost
  score : Int
  numDots : Int
  lives : Int
  pills : Nat
deriving DecidableEq, Repr

/-- The variables as Go initialises them: zero values, and `lives = 3`. -/
def fresh : Game :=
  { maze := [], player := ⟨0, 0, 0, 0⟩, ghosts := [], score := 0, numDots := 0,
    lives := 3, pills := 0 }

/-- Go `maze[i]` for an `int` index: `none` when the index is out of range. -/
def rowAt (maze : List (List Nat)) (i : Int) : Option (List Nat) :=
  if 0 ≤ i then maze[i.toNat]? else none

/-- Go `line[j]` for an `int` index: `none` when the index is out of range. -/
def byteAt (ln : List Nat) (j : Int) : Option Nat :=
  if 0 ≤ j then ln[j.toNat]? else none

/-- Go `maze[r][c]`. -/
def cellAt (maze : List (List Nat)) (r c : Int) : Option Nat :=
  (rowAt maze r).bind (fun line => byteAt line c)

/-- The candidate position computed by the `switch dir` of `makeMove`
(lines 296-317), before the wall test.  `len(maze[0])` is evaluated on every
`"RIGHT"` and, for `"LEFT"`, only when the column went negative. -/
def candidate (maze : List (List Nat)) (oldRow oldCol : Int) (dir : String) :
    Option (Int × Int) :=
  if dir = "UP" then
    let newRow := oldRow - 1
    if newRow < 0 then some ((maze.length : Int) - 1, oldCol) else some (newRow, oldCol)
  else if dir = "DOWN" then
    let newRow := oldRow + 1
    if newRow = (maze.length : Int) then some (0, oldCol) else some (newRow, oldCol)
  else if dir = "RIGHT" then
    let newCol := oldCol + 1
    (rowAt maze 0).bind (fun first =>
      if newCol = (first.length : Int) then some (oldRow, 0) else some (oldRow, newCol))
  else if dir = "LEFT" then
    let newCol := oldCol - 1
    if newCol < 0 then
      (rowAt maze 0).bind (fun first => some (oldRow, (first.length : Int) - 1))
    else some (oldRow, newCol)
  else some (oldRow, oldCol)

/-- Go `makeMove` (lines 294-323). -/
def makeMove (maze : List (List Nat)) (oldRow oldCol : Int) (dir : String) :
    Option (Int × Int) :=
  (candidate maze oldRow oldCol dir).bind (fun p =>
    (cellAt maze p.1 p.2).bind (fun b =>
      if b = chWall then some (oldRow, oldCol) else some p))

/-- The closure `removeDot` of `movePlayer` (lines 327-329):
`maze[row] = maze[row][:col] + " " + maze[row][col+1:]`. -/
def removeDot (maze : List (List Nat)) (row col : Int) : Option (List (List Nat)) :=
  (rowAt maze row).bind (fun line =>
    if 0 ≤ col ∧ col + 1 ≤ (line.length : Int) then
      some (maze.set row.toNat (line.take col.toNat ++ [chSpace] ++ line.drop (col.toNat + 1)))
    else none)

/-- Go `movePlayer` (lines 325-340).  `numDots--`, `score++` and `score += 10`
are computed in `Int`: they are Go's results when these are values of `int`
(`isGoInt`), which the theorems about them assume. -/
def movePlayer (s : Game) (dir : String) : Option Game :=
  (makeMove s.maze s.player.row s.player.col dir).bind (fun p =>
    let s1 : Game := { s with player := { s.player with row := p.1, col := p.2 } }
    (cellAt s1.maze s1.player.row s1.player.col).bind (fun b =>
      if b = chDot then
        (removeDot s1.maze s1.player.row s1.player.col).map (fun m =>
          { s1 with numDots := s1.numDots - 1, score := s1.score + 1, maze := m })
      else if b = chPill then
        (removeDot s1.maze s1.player.row s1.player.col).map (fun m =>
          { s1 with score := s1.score + 10, maze := m, pills := s1.pills + 1 })
      else some s1))

/-- Go `drawDirection` (lines 348-357), as a function of the value `n` that
`rand.Intn(4)` returned; a key missing from the map gives the empty string. -/
def drawDirection (n : Nat) : String :=
  if n = 0 then "UP" else if n = 1 then "DOWN" else if n = 2 then "RIGHT"
  else if n = 3 then "LEFT" else ""

/-- The loop of `moveGhost` over the ghosts from index `i` on; `draws k` is the
value `rand.Intn(4)` returns for the ghost of index `k`. -/
def moveGhosts (maze : List (List Nat)) (draws : Nat → Nat) : Nat → List ghost → Option (List ghost)
  | _, [] => some []
  | i, g :: gs =>
    (makeMove maze g.position.row g.position.col (drawDirection (draws i))).bind (fun p =>
      (moveGhosts maze draws (i + 1) gs).map (fun rest =>
        { g with position := { g.position with row := p.1, col := p.2 } } :: rest))

/-- Go `moveGhost` (lines 342-346). -/
def moveGhost (s : Game) (draws : Nat → Nat) : Option Game :=
  (moveGhosts s.maze draws 0 s.ghosts).map (fun gs => { s with ghosts := gs })

/-- The body of the collision loop of `main` (lines 113-122) for one ghost.
`lives--` is computed in `Int`: it is Go's result when that is a value of `int`
(`isGoInt`), which the theorems about the number of lives assume. -/
def collideOne (s : Game) (g : ghost) : Game :=
  if g.position.row = s.player.row ∧ g.position.col = s.player.col then
    let s1 : Game := { s with lives := s.lives - 1 }
    if s1.lives ≠ 0 then
      { s1 with player := { s1.player with row := s1.player.startRow, col := s1.player.startCol } }
    else s1
  else s

/-- The collision loop of `main` (lines 112-123). -/
def collide (s : Game) : Game :=
  s.ghosts.foldl collideOne s

/-- The game-over test of `main` (line 126). -/
def gameOver (s : Game) : Bool :=
  decide (s.numDots = 0) || decide (s.lives ≤ 0)

/-- One iteration of the `for` loop of `main` (lines 96-137).  `input` is what
the `select` received from `inputCh` (`none` for the `default` branch); the
result is the state at the end of the iteration and whether the loop did
`break`. -/
def tick (s : Game) (input : Option String) (draws : Nat → Nat) : Option (Game × Bool) :=
  let afterInput : Option Game :=
    match input with
    | some inp => movePlayer (if inp = "ESC" then { s with lives := 0 } else s) inp
    | none => some s
  afterInput.bind (fun s1 =>
    (moveGhost s1 draws).map (fun s2 =>
      let s3 := collide s2
      (s3, gameOver s3)))

/-- The `switch char` of `loadMaze` (lines 178-185) for the byte at `(row, col)`. -/
def loadCell (row col : Nat) (s : Game) (char : Nat) : Game :=
  if char = chPlayer then
    { s with player := ⟨row, col, row, col⟩ }
  else if char = chGhost then
    { s with ghosts := s.ghosts ++ [⟨⟨row, col, row, col⟩, GhostStatus.normal⟩] }
  else if char = chDot then
    { s with numDots := s.numDots + 1 }
  else s

/-- The inner loop of `loadMaze` (line 177) over the rest of a line, `col` being
the offset of its first byte.  Go's `range` over a string decodes UTF-8; the
three bytes tested are ASCII, which occur in UTF-8 only as themselves, and
`col` is the byte offset, so the loop is the same as one over the bytes. -/
def loadLine (row : Nat) : Nat → List Nat → Game → Game
  | _, [], s => s
  | col, char :: rest, s => loadLine row (col + 1) rest (loadCell row col s char)

/-- The outer loop of `loadMaze` (line 176) over the rows from index `row` on. -/
def loadRows : Nat → List (List Nat) → Game → Game
  | _, [], s => s
  | row, line :: rest, s => loadRows (row + 1) rest (loadLine row 0 line s)

/-- Go `loadMaze` (lines 163-189) once the file is open; `lines` are the lines
the scanner returned. -/
def loadMaze (s : Game) (lines : List (List Nat)) : Game :=
  let s1 : Game := { s with maze := s.maze ++ lines }
  loadRows 0 s1.maze s1

/-- The main loop run on a list of per-tick inputs and random draws, from the
state `s`: the state in which the loop did `break`, or, when the inputs run out
first, the state reached (`false`). -/
def run (s : Game) : List (Option String × (Nat → Nat)) → Option (Game × Bool)
  | [] => some (s, false)
  | (input, draws) :: rest =>
    (tick s input draws).bind (fun r => if r.2 then some r else run r.1 rest)

/-- The number of columns: `len(maze[0])`, 0 for an empty maze. -/
def cols (maze : List (List Nat)) : Nat := (maze.headD []).length

/-- Every row has the length of the first one. -/
def rectangular (maze : List (List Nat)) : Prop := ∀ line ∈ maze, line.length = cols maze

instance (maze : List (List Nat)) : Decidable (rectangular maze) := by
  unfold rectangular; infer_instance

/-- The number of `'.'` bytes in the maze. -/
def countDots (maze : List (List Nat)) : Nat := (maze.map (fun line => line.count chDot)).sum

/-- The maze with the byte at row `r`, column `c` replaced by a space: what
`removeDot` stores when both indices are in range. -/
def cleared (maze : List (List Nat)) (r c : Nat) : List (List Nat) :=
  maze.set r ((maze.getD r []).set c chSpace)

/-- Follows the spec's words (4.1, toroidal wraparound): the neighbour of
`(r, c)` in direction `dir` on a torus of `R` rows and `C` columns; a candidate
row or column outside `[0, extent)` wraps to the opposite edge. -/
def neighbour (R C : Nat) (r c : Int) (dir : String) : Int × Int :=
  if dir = "UP" then ((r - 1) % (R : Int), c)
  else if dir = "DOWN" then ((r + 1) % (R : Int), c)
  else if dir = "RIGHT" then (r, (c + 1) % (C : Int))
  else if dir = "LEFT" then (r, (c - 1) % (C : Int))
  else (r, c)

/-- Whether ghost `g` stands on the cell `(r, c)`. -/
def onCell (r c : Int) (g : ghost) : Bool :=
  decide (g.position.row = r ∧ g.position.col = c)

/-- Follows the spec's words (4.4 step 6): the number of adversaries whose
position equals the player's position when the collision check starts. -/
def colliders (s : Game) : Nat :=
  s.ghosts.countP (onCell s.player.row s.player.col)

/-- The ghosts that come later in the list than the first one standing on the
player's cell (empty when no ghost stands there). -/
def afterFirstCollider (s : Game) : List ghost :=
  (s.ghosts.dropWhile (fun g => !onCell s.player.row s.player.col g)).tail

/-- The states the program can reach from `s0` by the statements of the main
loop that write the game variables: the ESC assignment `lives = 0`,
`movePlayer`, `moveGhost` and the collision loop, each when it returns. -/
inductive Reachable (s0 : Game) : Game → Prop where
  | start : Reachable s0 s0
  | esc (s : Game) : Reachable s0 s → Reachable s0 { s with lives := 0 }
  | player (s s1 : Game) (dir : String) :
      Reachable s0 s → movePlayer s dir = some s1 → Reachable s0 s1
  | ghosts (s s1 : Game) (draws : Nat → Nat) :
      Reachable s0 s → moveGhost s draws = some s1 → Reachable s0 s1
  | collision (s : Game) : Reachable s0 s → Reachable s0 (collide s)

/-- The position `(r, c)` lies in `[0, R) x [0, C)`. -/
def inBounds (R C : Nat) (r c : Int) : Prop :=
  0 ≤ r ∧ r < (R : Int) ∧ 0 ≤ c ∧ c < (C : Int)

instance (R C : Nat) (r c : Int) : Decidable (inBounds R C r c) := by
  unfold inBounds; infer_instance

/-- The player, its spawn cell and every ghost lie in `[0, R) x [0, C)`. -/
def Placed (R C : Nat) (s : Game) : Prop :=
  inBounds R C s.player.row s.player.col ∧
  inBounds R C s.player.startRow s.player.startCol ∧
  ∀ g ∈ s.ghosts, inBounds R C g.position.row g.position.col

/-- The bounds invariant for a maze of `R` rows and `C` columns: the maze has
`R` rows, each of length `C`, and the player, its spawn cell and every ghost
lie in `[0, R) x [0, C)`. -/
def Inv (R C : Nat) (s : Game) : Prop :=
  s.maze.length = R ∧ (∀ ln ∈ s.maze, ln.length = C) ∧
  inBounds R C s.player.row s.player.col ∧
  inBounds R C s.player.startRow s.player.startCol ∧
  ∀ g ∈ s.ghosts, inBounds R C g.position.row g.position.col

/-! ### `processPill`: goroutines, the mutex `pillMux` and the timer

`movePlayer` launches one goroutine per pill eaten.  The goroutines are
modelled by interleaving: each statement of `processPill` is one atomic step of
the goroutine that executes it, steps of different goroutines are taken in any
order, and time (in units of the clock) passes between steps.  A step that
would block in Go (`Lock` on a held mutex, a receive from the channel of a
timer that has not fired) is not enabled. -/

/-- Go `updateGhosts` (lines 377-383). -/
def updateGhosts (ghosts : List ghost) (ghostStatus : GhostStatus) : List ghost :=
  ghosts.map (fun g => { g with status := ghostStatus })

/-- A `time.Timer` created by `time.NewTimer`: it fires once the clock reaches
`deadline`, unless `Stop` was called before that (`stopped`); `drained` records
that the value it sent on its channel `C` has been received. -/
structure Timer where
  deadline : Nat
  stopped : Bool
  drained : Bool
deriving DecidableEq, Repr

/-- Go `t.Stop()` at time `now`: a timer that has not fired yet is cancelled;
on a timer that has fired it has no effect. -/
def Timer.stop (t : Timer) (now : Nat) : Timer :=
  if now < t.deadline then { t with stopped := true } else t

/-- The statement of `processPill` (lines 362-373) a goroutine executes next. -/
inductive PC where
  /-- line 363, `pillMux.Lock()` -/
  | lock
  /-- line 364, `updateGhosts(ghosts, GhostStatusBlue)` -/
  | setBlue
  /-- lines 365-367, `if pillTimer != nil { pillTimer.Stop() }` -/
  | stopOld
  /-- line 368, `pillTimer = time.NewTimer(...)` -/
  | newTimer
  /-- line 369, the receive from `pillTimer.C` -/
  | recv
  /-- line 370, `pillTimer.Stop()` -/
  | stopOwn
  /-- line 371, `updateGhosts(ghosts, GhostStatusNormal)` -/
  | setNormal
  /-- line 372, `pillMux.Unlock()` -/
  | unlock
  /-- the goroutine has returned -/
  | done
deriving DecidableEq, Repr

/-- The goroutine holds `pillMux`: it is past line 363 and before the end of
line 372. -/
def PC.inside : PC → Bool
  | PC.lock => false
  | PC.done => false
  | _ => true

/-- The goroutine is at the receive of line 369. -/
def PC.waiting : PC → Bool
  | PC.recv => true
  | _ => false

/-- The goroutine is past line 364 and has not finished line 371. -/
def PC.blueZone : PC → Bool
  | PC.stopOld => true
  | PC.newTimer => true
  | PC.recv => true
  | PC.stopOwn => true
  | PC.setNormal => true
  | _ => false

/-- The state shared by the `processPill` goroutines: the clock, the mutex
`pillMux` (`some i` when goroutine `i` holds it), the variable `pillTimer`
(`none` for `nil`, else the index in `timers` of the timer it points to), the
timers created so far, the ghosts, and the next statement of each goroutine. -/
structure PillSys where
  now : Nat
  pillMux : Option Nat
  pillTimer : Option Nat
  timers : List Timer
  ghosts : List ghost
  pcs : List PC
deriving DecidableEq, Repr

/-- The state before any pill is eaten. -/
def PillSys.start (ghosts : List ghost) : PillSys :=
  { now := 0, pillMux := none, pillTimer := none, timers := [], ghosts := ghosts, pcs := [] }

/-- Goroutine `i` executes its next statement; `none` when that statement
blocks (or the goroutine does not exist or has returned).  `dur` is
`time.Second * theme.PillDurationSecs` in units of the clock. -/
def stepPill (dur : Nat) (st : PillSys) (i : Nat) : Option PillSys :=
  match st.pcs[i]? with
  | none => none
  | some PC.lock =>
    if st.pillMux = none then
      some { st with pillMux := some i, pcs := st.pcs.set i PC.setBlue }
    else none
  | some PC.setBlue =>
    some { st with ghosts := updateGhosts st.ghosts GhostStatus.blue,
                   pcs := st.pcs.set i PC.stopOld }
  | some PC.stopOld =>
    match st.pillTimer with
    | none => some { st with pcs := st.pcs.set i PC.newTimer }
    | some k =>
      (st.timers[k]?).map (fun t =>
        { st with timers := st.timers.set k (t.stop st.now),
                  pcs := st.pcs.set i PC.newTimer })
  | some PC.newTimer =>
    some { st with timers := st.timers ++ [⟨st.now + dur, false, false⟩],
                   pillTimer := some st.timers.length,
                   pcs := st.pcs.set i PC.recv }
  | some PC.recv =>
    (st.pillTimer.bind (fun k => (st.timers[k]?).map (fun t => (k, t)))).bind (fun kt =>
      if kt.2.deadline ≤ st.now ∧ kt.2.stopped = false ∧ kt.2.drained = false then
        some { st with timers := st.timers.set kt.1 { kt.2 with drained := true },
                       pcs := st.pcs.set i PC.stopOwn }
      else none)
  | some PC.stopOwn =>
    (st.pillTimer.bind (fun k => (st.timers[k]?).map (fun t => (k, t)))).map (fun kt =>
      { st with timers := st.timers.set kt.1 (kt.2.stop st.now),
                pcs := st.pcs.set i PC.setNormal })
  | some PC.setNormal =>
    some { st with ghosts := updateGhosts st.ghosts GhostStatus.normal,
                   pcs := st.pcs.set i PC.unlock }
  | some PC.unlock =>
    some { st with pillMux := none, pcs := st.pcs.set i PC.done }
  | some PC.done => none

/-- What can happen next in the system: `go processPill()` launches a
goroutine, goroutine `i` executes a statement, or `d` units of time pass. -/
inductive Act where
  | spawn
  | step (i : Nat)
  | sleep (d : Nat)
deriving DecidableEq, Repr

/-- One action. -/
def act (dur : Nat) (st : PillSys) : Act → Option PillSys
  | Act.spawn => some { st with pcs := st.pcs ++ [PC.lock] }
  | Act.step i => stepPill dur st i
  | Act.sleep d => some { st with now := st.now + d }

/-- A schedule: a list of actions executed in order, `none` when one of them is
not enabled. -/
def runActs (dur : Nat) (st : PillSys) : List Act → Option PillSys
  | [] => some st
  | a :: rest => (act dur st a).bind (fun st1 => runActs dur st1 rest)

/-- Every ghost has status `normal`. -/
def allNormal (ghosts : List ghost) : Prop := ∀ g ∈ ghosts, g.status = GhostStatus.normal

instance (ghosts : List ghost) : Decidable (allNormal ghosts) := by
  unfold allNormal; infer_instance

/-- Every ghost has status `blue`. -/
def allBlue (ghosts : List ghost) : Prop := ∀ g ∈ ghosts, g.status = GhostStatus.blue

instance (ghosts : List ghost) : Decidable (allBlue ghosts) := by
  unfold allBlue; infer_instance

/-- The invariant of the `processPill` goroutines: (1) goroutine `j` is between
`Lock` and `Unlock` exactly when it holds `pillMux`; (2) the holder of `pillMux`
is a goroutine that was launched; (3) no timer was ever stopped before it
fired; (4) `pillTimer` points to an existing timer; (5) unless a goroutine is
at the receive, the timer `pillTimer` points to has reached its deadline; (6)
unless a goroutine is between the two `updateGhosts` calls, every ghost is
normal. -/
def PillInv (st : PillSys) : Prop :=
  (∀ (j : Nat) (pc : PC), st.pcs[j]? = some pc →
    (pc.inside = true ↔ st.pillMux = some j)) ∧
  (∀ i : Nat, st.pillMux = some i → i < st.pcs.length) ∧
  (∀ t ∈ st.timers, t.stopped = false) ∧
  (∀ k, st.pillTimer = some k → k < st.timers.length) ∧
  ((∀ (j : Nat) (pc : PC), st.pcs[j]? = some pc → pc.waiting = false) →
    ∀ (k : Nat) (t : Timer), st.pillTimer = some k → st.timers[k]? = some t →
      t.deadline ≤ st.now) ∧
  ((∀ (j : Nat) (pc : PC), st.pcs[j]? = some pc → pc.blueZone = false) →
    allNormal st.ghosts)

/-- Consecutive timers are at least `dur` apart: each timer's deadline is at
least `dur` later than the deadline of the timer created before it. -/
def spaced (dur : Nat) (timers : List Timer) : Prop :=
  ∀ (k : Nat) (t t1 : Timer), timers[k]? = some t → timers[k + 1]? = some t1 →
    t.deadline + dur ≤ t1.deadline

/-- The variable `pillTimer` is `nil` when no timer was created and points to
the timer created last otherwise. -/
def pointsToLast (st : PillSys) : Prop :=
  (st.pillTimer = none ∧ st.timers = []) ∨
  ∃ k, st.pillTimer = some k ∧ k + 1 = st.timers.length

/-! ## Indexing lemmas -/

theorem rowAt_some (maze : List (List Nat)) (r : Int) (h0 : 0 ≤ r)
    (h1 : r < (maze.length : Int)) : ∃ line, rowAt maze r = some line ∧ line ∈ maze := by
  have hlt : r.toNat < maze.length := by omega
  refine ⟨maze[r.toNat], ?_, List.getElem_mem hlt⟩
  simp [rowAt, h0, List.getElem?_eq_getElem hlt]

theorem rowAt_zero (maze : List (List Nat)) (hne : maze ≠ []) :
    ∃ first, rowAt maze 0 = some first ∧ first.length = cols maze := by
  cases maze with
  | nil => exact absurd rfl hne
  | cons first rest => exact ⟨first, by simp [rowAt], by simp [cols]⟩

theorem cellAt_some (maze : List (List Nat)) (r c : Int) (hrect : rectangular maze)
    (hr0 : 0 ≤ r) (hr1 : r < (maze.length : Int)) (hc0 : 0 ≤ c)
    (hc1 : c < (cols maze : Int)) : ∃ b, cellAt maze r c = some b := by
  obtain ⟨ln, hline, hmem⟩ := rowAt_some maze r hr0 hr1
  have hlen : ln.length = cols maze := hrect ln hmem
  have hlt : c.toNat < ln.length := by omega
  refine ⟨ln[c.toNat], ?_⟩
  simp [cellAt, hline, byteAt, hc0, List.getElem?_eq_getElem hlt]

theorem emod_pred (n : Nat) (r : Int) (h0 : 0 ≤ r) (h1 : r < (n : Int)) :
    (r - 1) % (n : Int) = if r - 1 < 0 then (n : Int) - 1 else r - 1 := by
  split
  · have hr : r = 0 := by omega
    subst hr
    have h : ((0 : Int) - 1) % (n : Int) = ((n : Int) - 1 + (-1) * (n : Int)) % (n : Int) := by
      congr 1; ring
    rw [h, Int.add_mul_emod_self]
    exact Int.emod_eq_of_lt (by omega) (by omega)
  · exact Int.emod_eq_of_lt (by omega) (by omega)

theorem emod_succ (n : Nat) (r : Int) (h0 : 0 ≤ r) (h1 : r < (n : Int)) :
    (r + 1) % (n : Int) = if r + 1 = (n : Int) then 0 else r + 1 := by
  split
  · next h => rw [h]; exact Int.emod_self
  · exact Int.emod_eq_of_lt (by omega) (by omega)

/-- On a non-empty rectangular maze the `switch` of `makeMove` computes the
torus neighbour of an in-bounds position. -/
theorem candidate_eq_neighbour (maze : List (List Nat)) (r c : Int) (dir : String)
    (hne : maze ≠ []) (hr0 : 0 ≤ r) (hr1 : r < (maze.length : Int)) (hc0 : 0 ≤ c)
    (hc1 : c < (cols maze : Int)) :
    candidate maze r c dir = some (neighbour maze.length (cols maze) r c dir) := by
  obtain ⟨first, hfirst, hlen⟩ := rowAt_zero maze hne
  unfold candidate neighbour
  by_cases hU : dir = "UP"
  · subst hU
    simp only [if_true]
    rw [emod_pred maze.length r hr0 hr1]
    split <;> rfl
  by_cases hD : dir = "DOWN"
  · subst hD
    simp only [if_neg hU, if_true]
    rw [emod_succ maze.length r hr0 hr1]
    split <;> rfl
  by_cases hR : dir = "RIGHT"
  · subst hR
    simp only [if_neg hU, if_neg hD, if_true, hfirst, Option.some_bind, hlen]
    rw [emod_succ (cols maze) c hc0 hc1]
    split <;> rfl
  by_cases hL : dir = "LEFT"
  · subst hL
    simp only [if_neg hU, if_neg hD, if_neg hR, if_true, hfirst, Option.some_bind, hlen]
    rw [emod_pred (cols maze) c hc0 hc1]
    split <;> rfl
  simp only [if_neg hU, if_neg hD, if_neg hR, if_neg hL]

/-- The torus neighbour of an in-bounds position is in bounds. -/
theorem neighbour_inBounds (R C : Nat) (r c : Int) (dir : String)
    (hr0 : 0 ≤ r) (hr1 : r < (R : Int)) (hc0 : 0 ≤ c) (hc1 : c < (C : Int)) :
    0 ≤ (neighbour R C r c dir).1 ∧ (neighbour R C r c dir).1 < (R : Int) ∧
    0 ≤ (neighbour R C r c dir).2 ∧ (neighbour R C r c dir).2 < (C : Int) := by
  have hR : (0 : Int) < (R : Int) := by omega
  have hC : (0 : Int) < (C : Int) := by omega
  have e1 := Int.emod_nonneg (r - 1) (ne_of_gt hR)
  have e2 := Int.emod_lt_of_pos (r - 1) hR
  have e3 := Int.emod_nonneg (r + 1) (ne_of_gt hR)
  have e4 := Int.emod_lt_of_pos (r + 1) hR
  have e5 := Int.emod_nonneg (c - 1) (ne_of_gt hC)
  have e6 := Int.emod_lt_of_pos (c - 1) hC
  have e7 := Int.emod_nonneg (c + 1) (ne_of_gt hC)
  have e8 := Int.emod_lt_of_pos (c + 1) hC
  unfold neighbour
  split_ifs <;> exact ⟨by assumption, by assumption, by assumption, by assumption⟩

/-- What `makeMove` returns on a non-empty rectangular maze from an in-bounds
position, for any direction string: the torus neighbour, or the old position
when the neighbour is a wall. -/
theorem makeMove_eq (maze : List (List Nat)) (r c : Int) (dir : String)
    (hne : maze ≠ []) (hrect : rectangular maze) (hr0 : 0 ≤ r)
    (hr1 : r < (maze.length : Int)) (hc0 : 0 ≤ c) (hc1 : c < (cols maze : Int)) :
    makeMove maze r c dir =
      some (if cellAt maze (neighbour maze.length (cols maze) r c dir).1
                 (neighbour maze.length (cols maze) r c dir).2 = some chWall
            then (r, c) else neighbour maze.length (cols maze) r c dir) := by
  obtain ⟨n0, n1, n2, n3⟩ := neighbour_inBounds maze.length (cols maze) r c dir hr0 hr1 hc0 hc1
  obtain ⟨b, hb⟩ := cellAt_some maze _ _ hrect n0 n1 n2 n3
  unfold makeMove
  rw [candidate_eq_neighbour maze r c dir hne hr0 hr1 hc0 hc1]
  simp only [Option.some_bind, hb, Option.some.injEq]
  split <;> rfl

/-- C1. Toroidal wraparound of `makeMove`: on a non-empty rectangular maze with
`R` rows and `C = len(maze[0])` columns and an in-bounds `(r, c)`, UP from row 0
gives `(R-1, c)`, DOWN from row `R-1` gives `(0, c)`, LEFT from column 0 gives
`(r, C-1)` and RIGHT from column `C-1` gives `(r, 0)`, each provided the
destination cell is not the wall byte. -/
theorem makeMove_wraparound (maze : List (List Nat)) (r c : Int)
    (hne : maze ≠ []) (hrect : rectangular maze) (hr0 : 0 ≤ r)
    (hr1 : r < (maze.length : Int)) (hc0 : 0 ≤ c) (hc1 : c < (cols maze : Int)) :
    (cellAt maze ((maze.length : Int) - 1) c ≠ some chWall →
      makeMove maze 0 c "UP" = some ((maze.length : Int) - 1, c)) ∧
    (cellAt maze 0 c ≠ some chWall →
      makeMove maze ((maze.length : Int) - 1) c "DOWN" = some (0, c)) ∧
    (cellAt maze r ((cols maze : Int) - 1) ≠ some chWall →
      makeMove maze r 0 "LEFT" = some (r, (cols maze : Int) - 1)) ∧
    (cellAt maze r 0 ≠ some chWall →
      makeMove maze r ((cols maze : Int) - 1) "RIGHT" = some (r, 0)) := by
  have hR : (0 : Int) < (maze.length : Int) := by omega
  have hC : (0 : Int) < (cols maze : Int) := by omega
  have nU : neighbour maze.length (cols maze) 0 c "UP" = ((maze.length : Int) - 1, c) := by
    have h := emod_pred maze.length 0 (le_refl 0) hR
    simp only [neighbour, if_true, h]
    rfl
  have nD : neighbour maze.length (cols maze) ((maze.length : Int) - 1) c "DOWN" = (0, c) := by
    have h := emod_succ maze.length ((maze.length : Int) - 1) (by omega) (by omega)
    simp only [neighbour, h]
    simp
  have nL : neighbour maze.length (cols maze) r 0 "LEFT" = (r, (cols maze : Int) - 1) := by
    have h := emod_pred (cols maze) 0 (le_refl 0) hC
    simp only [neighbour, h]
    simp
  have nR : neighbour maze.length (cols maze) r ((cols maze : Int) - 1) "RIGHT" = (r, 0) := by
    have h := emod_succ (cols maze) ((cols maze : Int) - 1) (by omega) (by omega)
    simp only [neighbour, h]
    simp
  refine ⟨fun h => ?_, fun h => ?_, fun h => ?_, fun h => ?_⟩
  · rw [makeMove_eq maze 0 c "UP" hne hrect (le_refl 0) hR hc0 hc1, nU, if_neg h]
  · rw [makeMove_eq maze _ c "DOWN" hne hrect (by omega) (by omega) hc0 hc1, nD, if_neg h]
  · rw [makeMove_eq maze r 0 "LEFT" hne hrect hr0 hr1 (le_refl 0) hC, nL, if_neg h]
  · rw [makeMove_eq maze r _ "RIGHT" hne hrect hr0 hr1 (by omega) (by omega), nR, if_neg h]

/-- Witness of C1 on the one-row maze `".P."` (the spec's scenario): LEFT from
column 0 wraps to column 2. -/
theorem makeMove_wraparound_witness :
    makeMove [[46, 80, 46]] 0 0 "LEFT" = some (0, 2) :=
  (makeMove_wraparound [[46, 80, 46]] 0 0 (by decide) (by decide) (by decide) (by decide)
    (by decide) (by decide)).2.2.1 (by decide)

/-- C2. Wall-blocking in `makeMove`: on a non-empty rectangular maze, for an
in-bounds `(r, c)` and a direction among UP, DOWN, LEFT, RIGHT, if the candidate
cell (the torus neighbour in that direction) holds the wall byte, `makeMove`
returns exactly `(r, c)`; if it does not, `makeMove` returns the candidate. -/
theorem makeMove_wall_blocking (maze : List (List Nat)) (r c : Int) (dir : String)
    (hne : maze ≠ []) (hrect : rectangular maze) (hr0 : 0 ≤ r)
    (hr1 : r < (maze.length : Int)) (hc0 : 0 ≤ c) (hc1 : c < (cols maze : Int))
    (_hdir : dir = "UP" ∨ dir = "DOWN" ∨ dir = "LEFT" ∨ dir = "RIGHT") :
    (cellAt maze (neighbour maze.length (cols maze) r c dir).1
        (neighbour maze.length (cols maze) r c dir).2 = some chWall →
      makeMove maze r c dir = some (r, c)) ∧
    (cellAt maze (neighbour maze.length (cols maze) r c dir).1
        (neighbour maze.length (cols maze) r c dir).2 ≠ some chWall →
      makeMove maze r c dir = some (neighbour maze.length (cols maze) r c dir)) := by
  constructor
  · intro h
    rw [makeMove_eq maze r c dir hne hrect hr0 hr1 hc0 hc1, if_pos h]
  · intro h
    rw [makeMove_eq maze r c dir hne hrect hr0 hr1 hc0 hc1, if_neg h]

/-- Witness of C2 on the maze `"P#"` (the spec's scenario): RIGHT from column 0
is blocked by the wall and the position is unchanged. -/
theorem makeMove_wall_blocking_witness :
    makeMove [[80, 35]] 0 0 "RIGHT" = some (0, 0) :=
  (makeMove_wall_blocking [[80, 35]] 0 0 "RIGHT" (by decide) (by decide) (by decide)
    (by decide) (by decide) (by decide) (by decide)).1 (by decide)

/-! ## `movePlayer` -/

theorem cellAt_data (maze : List (List Nat)) (r c : Int) (b : Nat)
    (h : cellAt maze r c = some b) :
    0 ≤ r ∧ 0 ≤ c ∧ ∃ ln, maze[r.toNat]? = some ln ∧ ln[c.toNat]? = some b := by
  unfold cellAt rowAt at h
  by_cases hr : 0 ≤ r
  · rw [if_pos hr] at h
    cases hl : maze[r.toNat]? with
    | none => rw [hl] at h; simp at h
    | some ln =>
      rw [hl] at h
      simp only [Option.some_bind, byteAt] at h
      by_cases hc : 0 ≤ c
      · rw [if_pos hc] at h
        exact ⟨hr, hc, ln, rfl, h⟩
      · rw [if_neg hc] at h; simp at h
  · rw [if_neg hr] at h; simp at h

theorem cellAt_of_data (maze : List (List Nat)) (r c : Int) (hr : 0 ≤ r) (hc : 0 ≤ c) :
    cellAt maze r c = (maze[r.toNat]?).bind (fun ln => ln[c.toNat]?) := by
  unfold cellAt rowAt byteAt
  rw [if_pos hr]
  cases maze[r.toNat]? with
  | none => rfl
  | some ln => simp only [Option.some_bind, if_pos hc]

theorem removeDot_eq (maze : List (List Nat)) (r c : Int) (b : Nat)
    (h : cellAt maze r c = some b) :
    removeDot maze r c = some (cleared maze r.toNat c.toNat) := by
  obtain ⟨hr, hc, ln, hln, hb⟩ := cellAt_data maze r c b h
  have hlt : c.toNat < ln.length := by
    rcases Nat.lt_or_ge c.toNat ln.length with h1 | h1
    · exact h1
    · rw [List.getElem?_eq_none h1] at hb; simp at hb
  have hget : maze.getD r.toNat [] = ln := by
    simp [List.getD, hln]
  unfold removeDot rowAt cleared
  rw [if_pos hr, hln, hget]
  simp only [Option.some_bind]
  rw [if_pos ⟨hc, by omega⟩, List.set_eq_take_cons_drop chSpace hlt]
  simp

/-- The state `movePlayer` produces when it lands on `p` and finds byte `b`. -/
theorem movePlayer_eq (s : Game) (dir : String) (p : Int × Int) (b : Nat)
    (hp : makeMove s.maze s.player.row s.player.col dir = some p)
    (hb : cellAt s.maze p.1 p.2 = some b) :
    movePlayer s dir = some
      (if b = chDot then
        { s with player := { s.player with row := p.1, col := p.2 },
                 numDots := s.numDots - 1, score := s.score + 1,
                 maze := cleared s.maze p.1.toNat p.2.toNat }
      else if b = chPill then
        { s with player := { s.player with row := p.1, col := p.2 },
                 score := s.score + 10, pills := s.pills + 1,
                 maze := cleared s.maze p.1.toNat p.2.toNat }
      else { s with player := { s.player with row := p.1, col := p.2 } }) := by
  unfold movePlayer
  simp only [hp, Option.some_bind, hb, removeDot_eq s.maze p.1 p.2 b hb, Option.map_some']
  split_ifs <;> rfl

/-- The byte `cleared` leaves at the cleared cell. -/
theorem cellAt_cleared_self (maze : List (List Nat)) (r c : Int) (b : Nat)
    (h : cellAt maze r c = some b) :
    cellAt (cleared maze r.toNat c.toNat) r c = some chSpace := by
  obtain ⟨hr, hc, ln, hln, hb⟩ := cellAt_data maze r c b h
  have hlt : c.toNat < ln.length := by
    rcases Nat.lt_or_ge c.toNat ln.length with h1 | h1
    · exact h1
    · rw [List.getElem?_eq_none h1] at hb; simp at hb
  have hrlt : r.toNat < maze.length := by
    rcases Nat.lt_or_ge r.toNat maze.length with h1 | h1
    · exact h1
    · rw [List.getElem?_eq_none h1] at hln; simp at hln
  have hget : maze.getD r.toNat [] = ln := by
    simp [List.getD, hln]
  rw [cellAt_of_data _ r c hr hc]
  unfold cleared
  rw [hget, List.getElem?_set_eq_of_lt _ hrlt]
  simp only [Option.some_bind]
  exact List.getElem?_set_eq_of_lt _ hlt

/-- Inversion of `movePlayer`: when it returns, `makeMove` and the lookup of the
landing cell returned, and the result is the one of `movePlayer_eq`. -/
theorem movePlayer_inv (s : Game) (dir : String) (s1 : Game)
    (h : movePlayer s dir = some s1) :
    ∃ p b, makeMove s.maze s.player.row s.player.col dir = some p ∧
      cellAt s.maze p.1 p.2 = some b ∧
      s1 = (if b = chDot then
        { s with player := { s.player with row := p.1, col := p.2 },
                 numDots := s.numDots - 1, score := s.score + 1,
                 maze := cleared s.maze p.1.toNat p.2.toNat }
      else if b = chPill then
        { s with player := { s.player with row := p.1, col := p.2 },
                 score := s.score + 10, pills := s.pills + 1,
                 maze := cleared s.maze p.1.toNat p.2.toNat }
      else { s with player := { s.player with row := p.1, col := p.2 } }) := by
  cases hp : makeMove s.maze s.player.row s.player.col dir with
  | none => simp [movePlayer, hp] at h
  | some p =>
    cases hb : cellAt s.maze p.1 p.2 with
    | none => simp [movePlayer, hp, hb] at h
    | some b =>
      rw [movePlayer_eq s dir p b hp hb] at h
      exact ⟨p, b, rfl, hb, (Option.some.inj h).symm⟩

/-- With a direction string that is none of the four, `makeMove` returns the
old position whenever that cell can be indexed. -/
theorem makeMove_none (maze : List (List Nat)) (r c : Int) (b : Nat)
    (hb : cellAt maze r c = some b) : makeMove maze r c "" = some (r, c) := by
  have hc : candidate maze r c "" = some (r, c) := by
    unfold candidate
    simp
  unfold makeMove
  rw [hc]
  simp only [Option.some_bind, hb]
  split <;> rfl

/-- After `movePlayer` the player's cell can be indexed and holds neither a dot
nor a pill. -/
theorem movePlayer_cell (s : Game) (dir : String) (s1 : Game)
    (h : movePlayer s dir = some s1) :
    ∃ b, cellAt s1.maze s1.player.row s1.player.col = some b ∧ b ≠ chDot ∧ b ≠ chPill := by
  obtain ⟨p, b, _, hb, hs1⟩ := movePlayer_inv s dir s1 h
  by_cases hd : b = chDot
  · rw [if_pos hd] at hs1
    subst hs1
    exact ⟨chSpace, cellAt_cleared_self s.maze p.1 p.2 b hb, by decide, by decide⟩
  · rw [if_neg hd] at hs1
    by_cases hx : b = chPill
    · rw [if_pos hx] at hs1
      subst hs1
      exact ⟨chSpace, cellAt_cleared_self s.maze p.1 p.2 b hb, by decide, by decide⟩
    · rw [if_neg hx] at hs1
      subst hs1
      exact ⟨b, hb, hd, hx⟩

/-- C3. Consumption postcondition of `movePlayer`, for `score` and `numDots`
in the range where Go's `int` does not wrap: with `p` the cell the player lands
on (the result of `makeMove`) and `b` the byte there, if `b` is a dot then
afterwards `numDots` is one less, `score` one more and the cell holds a space;
if `b` is a pill then `score` is ten more, `numDots` unchanged and the cell
holds a space; for any other byte `maze`, `score` and `numDots` are unchanged.
In each case the new `score` and `numDots` are values of `int`, so no
operation wrapped. -/
theorem movePlayer_consumption (s : Game) (dir : String) (p : Int × Int) (b : Nat)
    (hscore : intMin ≤ s.score ∧ s.score + 10 ≤ intMax)
    (hdots : intMin ≤ s.numDots - 1 ∧ s.numDots ≤ intMax)
    (hp : makeMove s.maze s.player.row s.player.col dir = some p)
    (hb : cellAt s.maze p.1 p.2 = some b) :
    ∃ s1, movePlayer s dir = some s1 ∧ s1.player.row = p.1 ∧ s1.player.col = p.2 ∧
      isGoInt s1.score ∧ isGoInt s1.numDots ∧
      (b = chDot → s1.numDots = s.numDots - 1 ∧ s1.score = s.score + 1 ∧
        cellAt s1.maze p.1 p.2 = some chSpace) ∧
      (b = chPill → s1.score = s.score + 10 ∧ s1.numDots = s.numDots ∧
        cellAt s1.maze p.1 p.2 = some chSpace) ∧
      (b ≠ chDot → b ≠ chPill →
        s1.maze = s.maze ∧ s1.score = s.score ∧ s1.numDots = s.numDots) := by
  obtain ⟨hs0, hs1⟩ := hscore
  obtain ⟨hd0, hd1⟩ := hdots
  refine ⟨_, movePlayer_eq s dir p b hp hb, ?_, ?_, ?_, ?_, ?_, ?_, ?_⟩
  · split_ifs <;> rfl
  · split_ifs <;> rfl
  · unfold isGoInt
    split_ifs <;> exact ⟨by simp only; omega, by simp only; omega⟩
  · unfold isGoInt
    split_ifs <;> exact ⟨by simp only; omega, by simp only; omega⟩
  · intro hd
    rw [if_pos hd]
    exact ⟨rfl, rfl, cellAt_cleared_self s.maze p.1 p.2 b hb⟩
  · intro hx
    have hd : b ≠ chDot := by rw [hx]; decide
    rw [if_neg hd, if_pos hx]
    exact ⟨rfl, rfl, cellAt_cleared_self s.maze p.1 p.2 b hb⟩
  · intro hd hx
    rw [if_neg hd, if_neg hx]
    exact ⟨rfl, rfl, rfl⟩

/-- Witness of C3 on the maze `".P."` with the player on its spawn cell: LEFT
lands on the dot of column 0. -/
theorem movePlayer_consumption_witness :
    ∃ s1, movePlayer ⟨[[46, 80, 46]], ⟨0, 1, 0, 1⟩, [], 0, 2, 3, 0⟩ "LEFT" = some s1 ∧
      s1.numDots = 1 ∧ s1.score = 1 ∧ cellAt s1.maze 0 0 = some chSpace := by
  obtain ⟨s1, h1, _, _, _, _, hd, _, _⟩ :=
    movePlayer_consumption ⟨[[46, 80, 46]], ⟨0, 1, 0, 1⟩, [], 0, 2, 3, 0⟩ "LEFT" (0, 0) 46
      (by decide) (by decide) (by decide) (by decide)
  exact ⟨s1, h1, (hd rfl).1, (hd rfl).2.1, (hd rfl).2.2⟩

/-- C6. Collectible consumption is idempotent per cell: after any `movePlayer`
call the player's cell holds neither a dot nor a pill; a second `movePlayer`
with no direction returns and changes nothing; and any second `movePlayer` that
lands on the same cell (no direction, or a move blocked by a wall) leaves the
whole state, hence `score`, `numDots` and every maze cell, unchanged. -/
theorem movePlayer_idempotent (s : Game) (dir : String) (s1 : Game)
    (h : movePlayer s dir = some s1) :
    cellAt s1.maze s1.player.row s1.player.col ≠ some chDot ∧
    cellAt s1.maze s1.player.row s1.player.col ≠ some chPill ∧
    movePlayer s1 "" = some s1 ∧
    ∀ dir2 s2, movePlayer s1 dir2 = some s2 →
      s2.player.row = s1.player.row → s2.player.col = s1.player.col →
      s2 = s1 ∧ s2.score = s1.score ∧ s2.numDots = s1.numDots ∧ s2.maze = s1.maze := by
  obtain ⟨b, hb, hd, hx⟩ := movePlayer_cell s dir s1 h
  refine ⟨?_, ?_, ?_, ?_⟩
  · rw [hb]; intro e; exact hd (Option.some.inj e)
  · rw [hb]; intro e; exact hx (Option.some.inj e)
  · rw [movePlayer_eq s1 "" (s1.player.row, s1.player.col) b (makeMove_none _ _ _ b hb) hb,
      if_neg hd, if_neg hx]
  · intro dir2 s2 h2 hrow hcol
    obtain ⟨p2, b2, _, hb2, hs2⟩ := movePlayer_inv s1 dir2 s2 h2
    have hp1 : p2.1 = s1.player.row := by
      rw [← hrow, hs2]; split_ifs <;> rfl
    have hp2 : p2.2 = s1.player.col := by
      rw [← hcol, hs2]; split_ifs <;> rfl
    rw [hp1, hp2, hb] at hb2
    have hbb : b2 = b := (Option.some.inj hb2).symm
    rw [hbb, if_neg hd, if_neg hx, hp1, hp2] at hs2
    have e : s2 = s1 := by rw [hs2]
    exact ⟨e, by rw [e], by rw [e], by rw [e]⟩

/-- Witness of C6 on the maze `".P."`: after LEFT eats the dot of column 0, a
second `movePlayer` with no direction changes nothing. -/
theorem movePlayer_idempotent_witness :
    movePlayer ⟨[[32, 80, 46]], ⟨0, 0, 0, 1⟩, [], 1, 1, 3, 0⟩ "" =
      some ⟨[[32, 80, 46]], ⟨0, 0, 0, 1⟩, [], 1, 1, 3, 0⟩ :=
  (movePlayer_idempotent ⟨[[46, 80, 46]], ⟨0, 1, 0, 1⟩, [], 0, 2, 3, 0⟩ "LEFT"
    ⟨[[32, 80, 46]], ⟨0, 0, 0, 1⟩, [], 1, 1, 3, 0⟩ (by decide)).2.2.1

/-! ## The collision loop -/

/-- While the player stands on its spawn cell, the loop leaves it there and
takes one life per ghost on that cell. -/
theorem foldl_collideOne_atSpawn (gs : List ghost) (s : Game)
    (hr : s.player.row = s.player.startRow) (hc : s.player.col = s.player.startCol) :
    (gs.foldl collideOne s).player = s.player ∧
    (gs.foldl collideOne s).lives =
      s.lives - (gs.countP (onCell s.player.row s.player.col) : Int) := by
  induction gs generalizing s with
  | nil => simp
  | cons g gs ih =>
    have hp : (collideOne s g).player = s.player := by
      unfold collideOne
      by_cases h1 : g.position.row = s.player.row ∧ g.position.col = s.player.col
      · rw [if_pos h1]
        by_cases h2 : s.lives - 1 = 0
        · simp only [ne_eq, h2, not_true_eq_false, if_false]
        · simp only [ne_eq, h2, not_false_eq_true, if_true]
          obtain ⟨m, ⟨pr, pc, sr, sc⟩, gh, sco, nd, lv, pl⟩ := s
          simp only at hr hc
          subst hr hc
          rfl
      · rw [if_neg h1]
    have hl : (collideOne s g).lives =
        s.lives - (if onCell s.player.row s.player.col g = true then 1 else 0 : Int) := by
      unfold collideOne onCell
      by_cases h1 : g.position.row = s.player.row ∧ g.position.col = s.player.col
      · rw [if_pos h1, if_pos (decide_eq_true h1)]
        by_cases h2 : s.lives - 1 = 0
        · simp only [ne_eq, h2, not_true_eq_false, if_false]
        · simp only [ne_eq, h2, not_false_eq_true, if_true]
      · rw [if_neg h1, if_neg (by simpa using h1)]
        simp
    obtain ⟨ih1, ih2⟩ := ih (collideOne s g) (by rw [hp]; exact hr) (by rw [hp]; exact hc)
    refine ⟨by rw [List.foldl_cons, ih1, hp], ?_⟩
    rw [List.foldl_cons, ih2, hp, hl, List.countP_cons]
    split_ifs <;> push_cast <;> ring

/-- With at least two lives, the loop takes none when no ghost stands on the
player's cell, and otherwise one for the first such ghost plus one for each
later ghost on the spawn cell. -/
theorem foldl_collideOne_lives (gs : List ghost) (s : Game) (hl : 2 ≤ s.lives) :
    s.lives - (gs.foldl collideOne s).lives =
      match gs.dropWhile (fun g => !onCell s.player.row s.player.col g) with
      | [] => 0
      | _ :: rest => 1 + (rest.countP (onCell s.player.startRow s.player.startCol) : Int) := by
  induction gs with
  | nil => simp
  | cons g gs ih =>
    by_cases hg : onCell s.player.row s.player.col g = true
    · have hd : (g :: gs).dropWhile (fun g => !onCell s.player.row s.player.col g) = g :: gs := by
        simp [List.dropWhile, hg]
      have hone : collideOne s g =
          { s with lives := s.lives - 1,
                   player := { s.player with row := s.player.startRow,
                                             col := s.player.startCol } } := by
        have hg1 : g.position.row = s.player.row ∧ g.position.col = s.player.col := by
          simpa [onCell] using hg
        have hne : s.lives - 1 ≠ 0 := by omega
        unfold collideOne
        rw [if_pos hg1]
        simp only [ne_eq, hne, not_false_eq_true, if_true]
      rw [hd, List.foldl_cons, hone]
      have h := (foldl_collideOne_atSpawn gs
        { s with lives := s.lives - 1,
                 player := { s.player with row := s.player.startRow,
                                           col := s.player.startCol } } rfl rfl).2
      rw [h]
      simp only
      ring
    · have hd : (g :: gs).dropWhile (fun g => !onCell s.player.row s.player.col g) =
          gs.dropWhile (fun g => !onCell s.player.row s.player.col g) := by
        simp [List.dropWhile, hg]
      have hone : collideOne s g = s := by
        have hg1 : ¬ (g.position.row = s.player.row ∧ g.position.col = s.player.col) := by
          simpa [onCell] using hg
        unfold collideOne
        rw [if_neg hg1]
      rw [hd, List.foldl_cons, hone]
      exact ih

theorem dropWhile_not_eq_nil (p : ghost → Bool) (l : List ghost) :
    l.dropWhile (fun g => !p g) = [] ↔ l.countP p = 0 := by
  induction l with
  | nil => simp
  | cons g gs ih =>
    by_cases hg : p g = true
    · simp [List.dropWhile, hg, List.countP_cons]
    · simp [List.dropWhile, hg, List.countP_cons, ih]

/-- With at least two lives and a ghost on the player's cell, the loop ends with
the player on its spawn cell. -/
theorem foldl_collideOne_player (gs : List ghost) (s : Game) (hl : 2 ≤ s.lives)
    (h : gs.countP (onCell s.player.row s.player.col) ≠ 0) :
    (gs.foldl collideOne s).player =
      { s.player with row := s.player.startRow, col := s.player.startCol } := by
  induction gs with
  | nil => simp at h
  | cons g gs ih =>
    by_cases hg : onCell s.player.row s.player.col g = true
    · have hone : collideOne s g =
          { s with lives := s.lives - 1,
                   player := { s.player with row := s.player.startRow,
                                             col := s.player.startCol } } := by
        have hg1 : g.position.row = s.player.row ∧ g.position.col = s.player.col := by
          simpa [onCell] using hg
        have hne : s.lives - 1 ≠ 0 := by omega
        unfold collideOne
        rw [if_pos hg1]
        simp only [ne_eq, hne, not_false_eq_true, if_true]
      rw [List.foldl_cons, hone]
      exact (foldl_collideOne_atSpawn gs
        { s with lives := s.lives - 1,
                 player := { s.player with row := s.player.startRow,
                                           col := s.player.startCol } } rfl rfl).1
    · have hone : collideOne s g = s := by
        have hg1 : ¬ (g.position.row = s.player.row ∧ g.position.col = s.player.col) := by
          simpa [onCell] using hg
        unfold collideOne
        rw [if_neg hg1]
      rw [List.foldl_cons, hone]
      apply ih
      rw [List.countP_cons, if_neg hg] at h
      simpa using h

/-- C4, as stated, fails.  On the maze `"P.GG."` the second ghost first steps
onto the first one's cell; in the next tick the player moves RIGHT and both
ghosts move LEFT onto the player's cell `(0, 1)`.  Two adversaries stand on the
player's post-movement cell, and the collision loop takes one life: the first
collision respawns the player on `(0, 0)` before the second ghost is examined. -/
theorem collide_two_colliders_one_life :
    tick (loadMaze fresh [[80, 46, 71, 71, 46]]) none (fun i => if i = 0 then 0 else 3) =
      some (⟨[[80, 46, 71, 71, 46]], ⟨0, 0, 0, 0⟩,
        [⟨⟨0, 2, 0, 2⟩, GhostStatus.normal⟩, ⟨⟨0, 2, 0, 3⟩, GhostStatus.normal⟩], 0, 2, 3, 0⟩,
        false) ∧
    movePlayer ⟨[[80, 46, 71, 71, 46]], ⟨0, 0, 0, 0⟩,
        [⟨⟨0, 2, 0, 2⟩, GhostStatus.normal⟩, ⟨⟨0, 2, 0, 3⟩, GhostStatus.normal⟩], 0, 2, 3, 0⟩
        "RIGHT" =
      some ⟨[[80, 32, 71, 71, 46]], ⟨0, 1, 0, 0⟩,
        [⟨⟨0, 2, 0, 2⟩, GhostStatus.normal⟩, ⟨⟨0, 2, 0, 3⟩, GhostStatus.normal⟩], 1, 1, 3, 0⟩ ∧
    moveGhost ⟨[[80, 32, 71, 71, 46]], ⟨0, 1, 0, 0⟩,
        [⟨⟨0, 2, 0, 2⟩, GhostStatus.normal⟩, ⟨⟨0, 2, 0, 3⟩, GhostStatus.normal⟩], 1, 1, 3, 0⟩
        (fun _ => 3) =
      some ⟨[[80, 32, 71, 71, 46]], ⟨0, 1, 0, 0⟩,
        [⟨⟨0, 1, 0, 2⟩, GhostStatus.normal⟩, ⟨⟨0, 1, 0, 3⟩, GhostStatus.normal⟩], 1, 1, 3, 0⟩ ∧
    colliders ⟨[[80, 32, 71, 71, 46]], ⟨0, 1, 0, 0⟩,
        [⟨⟨0, 1, 0, 2⟩, GhostStatus.normal⟩, ⟨⟨0, 1, 0, 3⟩, GhostStatus.normal⟩], 1, 1, 3, 0⟩ = 2 ∧
    (collide ⟨[[80, 32, 71, 71, 46]], ⟨0, 1, 0, 0⟩,
        [⟨⟨0, 1, 0, 2⟩, GhostStatus.normal⟩, ⟨⟨0, 1, 0, 3⟩, GhostStatus.normal⟩], 1, 1, 3, 0⟩).lives
      = 2 ∧
    (3 : Int) - (collide ⟨[[80, 32, 71, 71, 46]], ⟨0, 1, 0, 0⟩,
        [⟨⟨0, 1, 0, 2⟩, GhostStatus.normal⟩, ⟨⟨0, 1, 0, 3⟩, GhostStatus.normal⟩], 1, 1, 3, 0⟩).lives
      ≠ (colliders ⟨[[80, 32, 71, 71, 46]], ⟨0, 1, 0, 0⟩,
        [⟨⟨0, 1, 0, 2⟩, GhostStatus.normal⟩, ⟨⟨0, 1, 0, 3⟩, GhostStatus.normal⟩], 1, 1, 3, 0⟩ : Int) := by
  refine ⟨by decide, by decide, by decide, by decide, by decide, by decide⟩

/-- The loop takes at most one life per ghost and gives none. -/
theorem foldl_collideOne_bounds (gs : List ghost) (s : Game) :
    s.lives - (gs.length : Int) ≤ (gs.foldl collideOne s).lives ∧
    (gs.foldl collideOne s).lives ≤ s.lives := by
  induction gs generalizing s with
  | nil => simp
  | cons g gs ih =>
    have hone : (collideOne s g).lives = s.lives ∨ (collideOne s g).lives = s.lives - 1 := by
      unfold collideOne
      by_cases h1 : g.position.row = s.player.row ∧ g.position.col = s.player.col
      · rw [if_pos h1]
        by_cases h2 : s.lives - 1 = 0
        · right
          simp only [ne_eq, h2, not_true_eq_false, if_false]
        · right
          simp only [ne_eq, h2, not_false_eq_true, if_true]
      · left
        rw [if_neg h1]
    obtain ⟨i1, i2⟩ := ih (collideOne s g)
    rw [List.foldl_cons]
    simp only [List.length_cons]
    push_cast
    rcases hone with e | e <;> rw [e] at i1 i2 <;> exact ⟨by omega, by omega⟩

/-- With no ghost on the player's cell the loop changes nothing. -/
theorem foldl_collideOne_none (gs : List ghost) (s : Game)
    (h : gs.countP (onCell s.player.row s.player.col) = 0) :
    gs.foldl collideOne s = s := by
  induction gs with
  | nil => rfl
  | cons g gs ih =>
    have hg : ¬ onCell s.player.row s.player.col g = true := by
      intro hg
      rw [List.countP_cons, if_pos hg] at h
      omega
    have hone : collideOne s g = s := by
      have hg1 : ¬ (g.position.row = s.player.row ∧ g.position.col = s.player.col) := by
        simpa [onCell] using hg
      unfold collideOne
      rw [if_neg hg1]
    rw [List.foldl_cons, hone]
    apply ih
    rw [List.countP_cons, if_neg hg] at h
    simpa using h

/-- C4, amended.  The collision loop compares each ghost, in list order, with
the position the player holds at that moment; `lives` is taken in the range
where no `lives--` wraps.  When the player stands on its spawn cell, `lives`
decreases by exactly the number of ghosts on the player's cell and the player
stays there.  With at least two lives at the start: when no ghost stands on the
player's cell, `lives` and the player's position are unchanged; otherwise the
first such ghost costs one life, which leaves `lives > 0`, and the player is
moved to its spawn cell, so that `lives` decreases in total by one plus the
number of later ghosts standing on the spawn cell, and the check ends with the
player on its spawn cell. -/
theorem collide_lives (s : Game)
    (hmin : intMin ≤ s.lives - (s.ghosts.length : Int)) (hmax : s.lives ≤ intMax) :
    isGoInt (collide s).lives ∧
    (s.player.row = s.player.startRow → s.player.col = s.player.startCol →
      s.lives - (collide s).lives = (colliders s : Int) ∧
      (collide s).player = s.player) ∧
    (2 ≤ s.lives →
      (colliders s = 0 → (collide s).lives = s.lives ∧ (collide s).player = s.player) ∧
      (colliders s ≠ 0 →
        s.lives - (collide s).lives =
          1 + ((afterFirstCollider s).countP
                (onCell s.player.startRow s.player.startCol) : Int) ∧
        (collide s).player.row = s.player.startRow ∧
        (collide s).player.col = s.player.startCol)) := by
  refine ⟨?_, ?_, ?_⟩
  · obtain ⟨b1, b2⟩ := foldl_collideOne_bounds s.ghosts s
    unfold isGoInt collide
    exact ⟨by omega, by omega⟩
  · intro hr hc
    unfold collide colliders
    obtain ⟨h1, h2⟩ := foldl_collideOne_atSpawn s.ghosts s hr hc
    exact ⟨by rw [h2]; ring, h1⟩
  · intro hl
    constructor
    · intro h0
      unfold collide
      rw [foldl_collideOne_none s.ghosts s h0]
      exact ⟨rfl, rfl⟩
    · intro hne
      refine ⟨?_, ?_⟩
      · unfold collide
        rw [foldl_collideOne_lives s.ghosts s hl]
        unfold afterFirstCollider
        cases hd : s.ghosts.dropWhile (fun g => !onCell s.player.row s.player.col g) with
        | nil => exact absurd ((dropWhile_not_eq_nil _ _).1 hd) hne
        | cons g rest => rfl
      · unfold collide
        rw [foldl_collideOne_player s.ghosts s hl hne]
        exact ⟨rfl, rfl⟩

/-- Witness of C4 (amended) on the state of the counterexample: three lives,
two ghosts on the player's cell `(0, 1)`, spawn cell `(0, 0)` free of ghosts;
the loop takes one life and the player ends on its spawn cell. -/
theorem collide_lives_witness :
    (3 : Int) - (collide ⟨[[80, 32, 71, 71, 46]], ⟨0, 1, 0, 0⟩,
        [⟨⟨0, 1, 0, 2⟩, GhostStatus.normal⟩, ⟨⟨0, 1, 0, 3⟩, GhostStatus.normal⟩],
        1, 1, 3, 0⟩).lives = 1 ∧
    (collide ⟨[[80, 32, 71, 71, 46]], ⟨0, 1, 0, 0⟩,
        [⟨⟨0, 1, 0, 2⟩, GhostStatus.normal⟩, ⟨⟨0, 1, 0, 3⟩, GhostStatus.normal⟩],
        1, 1, 3, 0⟩).player.col = 0 :=
  ⟨((((collide_lives ⟨[[80, 32, 71, 71, 46]], ⟨0, 1, 0, 0⟩,
        [⟨⟨0, 1, 0, 2⟩, GhostStatus.normal⟩, ⟨⟨0, 1, 0, 3⟩, GhostStatus.normal⟩],
        1, 1, 3, 0⟩ (by decide) (by decide)).2.2 (by decide)).2 (by decide)).1).trans
      (by decide),
   (((collide_lives ⟨[[80, 32, 71, 71, 46]], ⟨0, 1, 0, 0⟩,
        [⟨⟨0, 1, 0, 2⟩, GhostStatus.normal⟩, ⟨⟨0, 1, 0, 3⟩, GhostStatus.normal⟩],
        1, 1, 3, 0⟩ (by decide) (by decide)).2.2 (by decide)).2 (by decide)).2.2⟩

/-- The part of C5 that holds.  For one ghost on the player's cell: when the
decrement leaves `lives > 0` the player is put on its spawn cell, and when it
leaves `lives = 0` the player is not moved.  For the whole loop: with at least
two lives and a ghost on the player's cell, the check ends with the player on
its spawn cell. -/
theorem collide_respawn_nonfatal (s : Game) :
    (∀ g, onCell s.player.row s.player.col g = true → 0 < s.lives - 1 →
      (collideOne s g).lives = s.lives - 1 ∧
      (collideOne s g).player.row = s.player.startRow ∧
      (collideOne s g).player.col = s.player.startCol) ∧
    (∀ g, onCell s.player.row s.player.col g = true → s.lives - 1 = 0 →
      (collideOne s g).lives = 0 ∧ (collideOne s g).player = s.player) ∧
    (2 ≤ s.lives → colliders s ≠ 0 →
      (collide s).player.row = s.player.startRow ∧
      (collide s).player.col = s.player.startCol) := by
  refine ⟨?_, ?_, ?_⟩
  · intro g hg hpos
    have hg1 : g.position.row = s.player.row ∧ g.position.col = s.player.col := by
      simpa [onCell] using hg
    have hne : s.lives - 1 ≠ 0 := by omega
    unfold collideOne
    rw [if_pos hg1]
    simp only [ne_eq, hne, not_false_eq_true, if_true, and_self]
  · intro g hg hzero
    have hg1 : g.position.row = s.player.row ∧ g.position.col = s.player.col := by
      simpa [onCell] using hg
    unfold collideOne
    rw [if_pos hg1]
    simp only [ne_eq, hzero, not_true_eq_false, if_false, and_self]
  · intro hl hc
    unfold collide
    rw [foldl_collideOne_player s.ghosts s hl hc]
    exact ⟨rfl, rfl⟩

/-- C5, the code at the failing input.  Maze `"P.G."`: the first tick moves the
player RIGHT to `(0, 1)`; in the second tick the input is ESC, so `lives = 0`,
the player stays, and the ghost moves LEFT onto the player's cell.  The
decrement leaves `lives = -1`, which is `<= 0`, and the guard `lives != 0` of
line 115 still moves the player to its spawn cell `(0, 0)`. -/
theorem collide_respawn_negative_lives :
    tick (loadMaze fresh [[80, 46, 71, 46]]) (some "RIGHT") (fun _ => 0) =
      some (⟨[[80, 32, 71, 46]], ⟨0, 1, 0, 0⟩, [⟨⟨0, 2, 0, 2⟩, GhostStatus.normal⟩],
        1, 1, 3, 0⟩, false) ∧
    (movePlayer ⟨[[80, 32, 71, 46]], ⟨0, 1, 0, 0⟩, [⟨⟨0, 2, 0, 2⟩, GhostStatus.normal⟩],
        1, 1, 0, 0⟩ "ESC").bind (fun s1 => moveGhost s1 (fun _ => 3)) =
      some ⟨[[80, 32, 71, 46]], ⟨0, 1, 0, 0⟩, [⟨⟨0, 1, 0, 2⟩, GhostStatus.normal⟩],
        1, 1, 0, 0⟩ ∧
    collide ⟨[[80, 32, 71, 46]], ⟨0, 1, 0, 0⟩, [⟨⟨0, 1, 0, 2⟩, GhostStatus.normal⟩],
        1, 1, 0, 0⟩ =
      ⟨[[80, 32, 71, 46]], ⟨0, 0, 0, 0⟩, [⟨⟨0, 1, 0, 2⟩, GhostStatus.normal⟩],
        1, 1, -1, 0⟩ ∧
    tick ⟨[[80, 32, 71, 46]], ⟨0, 1, 0, 0⟩, [⟨⟨0, 2, 0, 2⟩, GhostStatus.normal⟩],
        1, 1, 3, 0⟩ (some "ESC") (fun _ => 3) =
      some (⟨[[80, 32, 71, 46]], ⟨0, 0, 0, 0⟩, [⟨⟨0, 1, 0, 2⟩, GhostStatus.normal⟩],
        1, 1, -1, 0⟩, true) := by
  refine ⟨by decide, by decide, by decide, by decide⟩

/-! ## The main loop -/

/-- C8. Termination check: a tick ends with `break` if and only if, at its end,
`numDots == 0` or `lives <= 0`; so it breaks when `numDots` is 0 although
`lives > 0`, and when `lives <= 0` although dots remain.  Scenario: on the
one-row maze `".P."` with no ghosts, LEFT does not end the loop and a second
LEFT leaves score 2, `numDots` 0, lives 3 and ends it. -/
theorem tick_break_iff :
    (∀ s input draws s1 b, tick s input draws = some (s1, b) →
      (b = true ↔ (s1.numDots = 0 ∨ s1.lives ≤ 0))) ∧
    (∀ s input draws s1 b, tick s input draws = some (s1, b) →
      s1.numDots = 0 → 0 < s1.lives → b = true) ∧
    (∀ s input draws s1 b, tick s input draws = some (s1, b) →
      s1.lives ≤ 0 → s1.numDots ≠ 0 → b = true) ∧
    tick (loadMaze fresh [[46, 80, 46]]) (some "LEFT") (fun _ => 0) =
      some (⟨[[32, 80, 46]], ⟨0, 0, 0, 1⟩, [], 1, 1, 3, 0⟩, false) ∧
    tick ⟨[[32, 80, 46]], ⟨0, 0, 0, 1⟩, [], 1, 1, 3, 0⟩ (some "LEFT") (fun _ => 0) =
      some (⟨[[32, 80, 32]], ⟨0, 2, 0, 1⟩, [], 2, 0, 3, 0⟩, true) ∧
    run (loadMaze fresh [[46, 80, 46]])
        [(some "LEFT", fun _ => 0), (some "LEFT", fun _ => 0)] =
      some (⟨[[32, 80, 32]], ⟨0, 2, 0, 1⟩, [], 2, 0, 3, 0⟩, true) := by
  have key : ∀ s input draws s1 b, tick s input draws = some (s1, b) →
      (b = true ↔ (s1.numDots = 0 ∨ s1.lives ≤ 0)) := by
    intro s input draws s1 b h
    unfold tick at h
    simp only [Option.bind_eq_some, Option.map_eq_some', Prod.mk.injEq] at h
    obtain ⟨a, _, a2, _, h3, h4⟩ := h
    rw [← h4, ← h3]
    simp [gameOver]
  refine ⟨key, ?_, ?_, by decide, by decide, by decide⟩
  · intro s input draws s1 b h hd _
    exact (key s input draws s1 b h).2 (Or.inl hd)
  · intro s input draws s1 b h hl _
    exact (key s input draws s1 b h).2 (Or.inr hl)

/-- Witness of C8: the second tick of the scenario breaks, with `numDots = 0`
and three lives left. -/
theorem tick_break_iff_witness :
    (true = true ↔
      ((⟨[[32, 80, 32]], ⟨0, 2, 0, 1⟩, [], 2, 0, 3, 0⟩ : Game).numDots = 0 ∨
       (⟨[[32, 80, 32]], ⟨0, 2, 0, 1⟩, [], 2, 0, 3, 0⟩ : Game).lives ≤ 0)) :=
  tick_break_iff.1 ⟨[[32, 80, 46]], ⟨0, 0, 0, 1⟩, [], 1, 1, 3, 0⟩ (some "LEFT") (fun _ => 0)
    ⟨[[32, 80, 32]], ⟨0, 2, 0, 1⟩, [], 2, 0, 3, 0⟩ true (by decide)

/-! ## The dot count -/

theorem count_set_add (l : List Nat) (j x a b : Nat) (h : l[j]? = some b) :
    (l.set j x).count a + (if b = a then 1 else 0) =
      l.count a + (if x = a then 1 else 0) := by
  induction l generalizing j with
  | nil => simp at h
  | cons y ys ih =>
    cases j with
    | zero =>
      simp only [List.getElem?_cons_zero, Option.some.injEq] at h
      subst h
      simp only [List.set_cons_zero, List.count_cons, beq_iff_eq]
      omega
    | succ k =>
      simp only [List.getElem?_cons_succ] at h
      have := ih k h
      simp only [List.set_cons_succ, List.count_cons, beq_iff_eq]
      omega

theorem countDots_set (maze : List (List Nat)) (i : Nat) (new old : List Nat)
    (h : maze[i]? = some old) :
    countDots (maze.set i new) + old.count chDot = countDots maze + new.count chDot := by
  induction maze generalizing i with
  | nil => simp at h
  | cons y ys ih =>
    cases i with
    | zero =>
      simp only [List.getElem?_cons_zero, Option.some.injEq] at h
      subst h
      simp only [countDots, List.set_cons_zero, List.map_cons, List.sum_cons]
      omega
    | succ k =>
      simp only [List.getElem?_cons_succ] at h
      have := ih k h
      simp only [countDots, List.set_cons_succ, List.map_cons, List.sum_cons] at this ⊢
      omega

/-- Clearing a cell removes one dot when the cell held a dot and none otherwise. -/
theorem countDots_cleared (maze : List (List Nat)) (r c : Int) (b : Nat)
    (h : cellAt maze r c = some b) :
    countDots (cleared maze r.toNat c.toNat) + (if b = chDot then 1 else 0) =
      countDots maze := by
  obtain ⟨_, _, ln, hln, hb⟩ := cellAt_data maze r c b h
  have hget : maze.getD r.toNat [] = ln := by
    simp [List.getD, hln]
  have h1 := countDots_set maze r.toNat (ln.set c.toNat chSpace) ln hln
  have h2 := count_set_add ln c.toNat chSpace chDot b hb
  have h3 : (if chSpace = chDot then 1 else 0) = 0 := by decide
  unfold cleared
  rw [hget]
  omega

/-- Clearing a cell leaves every other cell as it was. -/
theorem cellAt_cleared_other (maze : List (List Nat)) (r c r1 c1 : Int)
    (hr : 0 ≤ r) (hc : 0 ≤ c) (hne : ¬ (r1 = r ∧ c1 = c)) :
    cellAt (cleared maze r.toNat c.toNat) r1 c1 = cellAt maze r1 c1 := by
  by_cases hr1 : 0 ≤ r1
  · by_cases hc1 : 0 ≤ c1
    · rw [cellAt_of_data _ r1 c1 hr1 hc1, cellAt_of_data _ r1 c1 hr1 hc1]
      unfold cleared
      by_cases hrr : r.toNat = r1.toNat
      · have hcc : c.toNat ≠ c1.toNat := by
          intro e
          exact hne ⟨by omega, by omega⟩
        rw [← hrr, List.getElem?_set]
        simp only [if_true]
        by_cases hlt : r.toNat < maze.length
        · rw [if_pos hlt]
          have hget : maze.getD r.toNat [] = maze[r.toNat] := by
            simp [List.getD, List.getElem?_eq_getElem hlt]
          rw [hget, List.getElem?_eq_getElem hlt]
          simp only [Option.some_bind]
          exact List.getElem?_set_ne hcc
        · rw [if_neg hlt, List.getElem?_eq_none (by omega)]
      · rw [List.getElem?_set_ne hrr]
    · simp [cellAt, byteAt, hc1]
  · simp [cellAt, rowAt, hr1]

/-- The function `movePlayer` keeps `numDots` equal to the number of dots of
the maze and changes no cell other than the one the player lands on. -/
theorem movePlayer_countDots (s : Game) (dir : String) (s1 : Game)
    (h : movePlayer s dir = some s1) :
    (s.numDots = (countDots s.maze : Int) → s1.numDots = (countDots s1.maze : Int)) ∧
    (∀ r c, ¬ (r = s1.player.row ∧ c = s1.player.col) →
      cellAt s1.maze r c = cellAt s.maze r c) := by
  obtain ⟨p, b, _, hb, hs1⟩ := movePlayer_inv s dir s1 h
  obtain ⟨hr, hc, _⟩ := cellAt_data s.maze p.1 p.2 b hb
  have hcd := countDots_cleared s.maze p.1 p.2 b hb
  by_cases hd : b = chDot
  · rw [if_pos hd] at hs1 hcd
    subst hs1
    refine ⟨fun h0 => ?_, fun r c hne => cellAt_cleared_other s.maze p.1 p.2 r c hr hc hne⟩
    simp only
    omega
  · rw [if_neg hd] at hs1 hcd
    by_cases hx : b = chPill
    · rw [if_pos hx] at hs1
      subst hs1
      refine ⟨fun h0 => ?_, fun r c hne => cellAt_cleared_other s.maze p.1 p.2 r c hr hc hne⟩
      simp only
      omega
    · rw [if_neg hx] at hs1
      subst hs1
      exact ⟨fun h0 => h0, fun _ _ _ => rfl⟩

theorem loadCell_frame (row col : Nat) (s : Game) (char : Nat) :
    (loadCell row col s char).maze = s.maze ∧
    (loadCell row col s char).numDots = s.numDots + (if char = chDot then 1 else 0) := by
  unfold loadCell
  by_cases hP : char = chPlayer
  · subst hP; simp
  by_cases hG : char = chGhost
  · subst hG; simp
  by_cases hD : char = chDot
  · subst hD; simp
  simp [hP, hG, hD]

theorem loadLine_frame (row : Nat) (ln : List Nat) (col : Nat) (s : Game) :
    (loadLine row col ln s).maze = s.maze ∧
    (loadLine row col ln s).numDots = s.numDots + (ln.count chDot : Int) := by
  induction ln generalizing col s with
  | nil => simp [loadLine]
  | cons ch rest ih =>
    obtain ⟨h1, h2⟩ := ih (col + 1) (loadCell row col s ch)
    obtain ⟨c1, c2⟩ := loadCell_frame row col s ch
    refine ⟨by rw [loadLine, h1, c1], ?_⟩
    rw [loadLine, h2, c2, List.count_cons]
    simp only [beq_iff_eq]
    split_ifs <;> push_cast <;> ring

theorem loadRows_frame (rows : List (List Nat)) (row : Nat) (s : Game) :
    (loadRows row rows s).maze = s.maze ∧
    (loadRows row rows s).numDots = s.numDots + (countDots rows : Int) := by
  induction rows generalizing row s with
  | nil => simp [loadRows, countDots]
  | cons ln rest ih =>
    obtain ⟨h1, h2⟩ := ih (row + 1) (loadLine row 0 ln s)
    obtain ⟨c1, c2⟩ := loadLine_frame row ln 0 s
    refine ⟨by rw [loadRows, h1, c1], ?_⟩
    rw [loadRows, h2, c2]
    simp only [countDots, List.map_cons, List.sum_cons] at *
    push_cast
    ring

/-- On the fresh variables `loadMaze` stores the lines as the maze and counts
their dots. -/
theorem loadMaze_fresh (lines : List (List Nat)) :
    (loadMaze fresh lines).maze = lines ∧
    (loadMaze fresh lines).numDots = (countDots lines : Int) := by
  obtain ⟨h1, h2⟩ := loadRows_frame ([] ++ lines) 0 { fresh with maze := [] ++ lines }
  unfold loadMaze
  simp only [fresh, List.nil_append] at *
  exact ⟨h1, by rw [h2]; ring⟩

theorem moveGhost_frame (s : Game) (draws : Nat → Nat) (s1 : Game)
    (h : moveGhost s draws = some s1) :
    s1.maze = s.maze ∧ s1.numDots = s.numDots ∧ s1.player = s.player := by
  unfold moveGhost at h
  simp only [Option.map_eq_some'] at h
  obtain ⟨gs, _, h2⟩ := h
  subst h2
  exact ⟨rfl, rfl, rfl⟩

theorem collideOne_frame (s : Game) (g : ghost) :
    (collideOne s g).maze = s.maze ∧ (collideOne s g).numDots = s.numDots ∧
    (collideOne s g).ghosts = s.ghosts ∧
    (collideOne s g).player.startRow = s.player.startRow ∧
    (collideOne s g).player.startCol = s.player.startCol := by
  unfold collideOne
  by_cases h1 : g.position.row = s.player.row ∧ g.position.col = s.player.col
  · rw [if_pos h1]
    by_cases h2 : s.lives - 1 = 0
    · simp only [ne_eq, h2, not_true_eq_false, if_false, and_self]
    · simp only [ne_eq, h2, not_false_eq_true, if_true, and_self]
  · rw [if_neg h1]
    exact ⟨rfl, rfl, rfl, rfl, rfl⟩

theorem foldl_collideOne_frame (gs : List ghost) (s : Game) :
    (gs.foldl collideOne s).maze = s.maze ∧ (gs.foldl collideOne s).numDots = s.numDots ∧
    (gs.foldl collideOne s).ghosts = s.ghosts ∧
    (gs.foldl collideOne s).player.startRow = s.player.startRow ∧
    (gs.foldl collideOne s).player.startCol = s.player.startCol := by
  induction gs generalizing s with
  | nil => exact ⟨rfl, rfl, rfl, rfl, rfl⟩
  | cons g gs ih =>
    obtain ⟨a1, a2, a3, a4, a5⟩ := ih (collideOne s g)
    obtain ⟨b1, b2, b3, b4, b5⟩ := collideOne_frame s g
    rw [List.foldl_cons]
    exact ⟨a1.trans b1, a2.trans b2, a3.trans b3, a4.trans b4, a5.trans b5⟩

/-- No dot is counted exactly when no cell of the maze holds a dot. -/
theorem countDots_eq_zero_iff (maze : List (List Nat)) :
    countDots maze = 0 ↔ ∀ r c, cellAt maze r c ≠ some chDot := by
  constructor
  · intro h0 r c hcell
    obtain ⟨_, _, ln, hln, hb⟩ := cellAt_data maze r c chDot hcell
    have hmem : ln ∈ maze := List.mem_iff_getElem?.2 ⟨_, hln⟩
    have hdot : chDot ∈ ln := List.mem_iff_getElem?.2 ⟨_, hb⟩
    have hpos : 0 < ln.count chDot := List.count_pos_iff.2 hdot
    have hle : ln.count chDot ≤ countDots maze :=
      List.single_le_sum (by intro x _; exact Nat.zero_le x) _
        (List.mem_map.2 ⟨ln, hmem, rfl⟩)
    omega
  · intro h
    unfold countDots
    rw [List.sum_eq_zero_iff]
    intro n hn
    obtain ⟨ln, hmem, hcount⟩ := List.mem_map.1 hn
    rw [← hcount, List.count_eq_zero]
    intro hdot
    obtain ⟨i, hi⟩ := List.mem_iff_getElem?.1 hmem
    obtain ⟨j, hj⟩ := List.mem_iff_getElem?.1 hdot
    apply h (i : Int) (j : Int)
    rw [cellAt_of_data _ _ _ (Int.natCast_nonneg i) (Int.natCast_nonneg j)]
    simp [hi, hj]

/-- C10. Dot-count invariant: after `loadMaze` on the fresh variables `numDots`
equals the number of dot bytes of the maze; every `movePlayer` call keeps that
equality and changes at most the cell the player lands on; so in every
reachable state `numDots` is that number, `numDots >= 0`, and `numDots == 0`
holds exactly when no cell of the maze holds a dot. -/
theorem numDots_invariant (lines : List (List Nat)) :
    (loadMaze fresh lines).numDots = (countDots (loadMaze fresh lines).maze : Int) ∧
    (∀ s dir s1, movePlayer s dir = some s1 → s.numDots = (countDots s.maze : Int) →
      s1.numDots = (countDots s1.maze : Int) ∧
      ∀ r c, ¬ (r = s1.player.row ∧ c = s1.player.col) →
        cellAt s1.maze r c = cellAt s.maze r c) ∧
    (∀ s, Reachable (loadMaze fresh lines) s →
      s.numDots = (countDots s.maze : Int) ∧ 0 ≤ s.numDots ∧
      (s.numDots = 0 ↔ ∀ r c, cellAt s.maze r c ≠ some chDot)) := by
  have hload : (loadMaze fresh lines).numDots =
      (countDots (loadMaze fresh lines).maze : Int) := by
    rw [(loadMaze_fresh lines).1, (loadMaze_fresh lines).2]
  have hreach : ∀ s, Reachable (loadMaze fresh lines) s →
      s.numDots = (countDots s.maze : Int) := by
    intro s hs
    induction hs with
    | start => exact hload
    | esc s _ ih => exact ih
    | player s s1 dir _ hm ih => exact (movePlayer_countDots s dir s1 hm).1 ih
    | ghosts s s1 draws _ hm ih =>
      obtain ⟨h1, h2, _⟩ := moveGhost_frame s draws s1 hm
      rw [h1, h2]; exact ih
    | collision s _ ih =>
      obtain ⟨h1, h2, _⟩ := foldl_collideOne_frame s.ghosts s
      unfold collide
      rw [h1, h2]; exact ih
  refine ⟨hload, ?_, ?_⟩
  · intro s dir s1 hm h0
    exact ⟨(movePlayer_countDots s dir s1 hm).1 h0, (movePlayer_countDots s dir s1 hm).2⟩
  · intro s hs
    have h := hreach s hs
    refine ⟨h, by rw [h]; exact Int.natCast_nonneg _, ?_⟩
    rw [h, ← countDots_eq_zero_iff]
    exact Int.natCast_eq_zero

/-- Witness of C10 on the maze `".P."`: after LEFT from the loaded state, one
dot is left and `numDots` is 1. -/
theorem numDots_invariant_witness :
    (⟨[[32, 80, 46]], ⟨0, 0, 0, 1⟩, [], 1, 1, 3, 0⟩ : Game).numDots =
      (countDots (⟨[[32, 80, 46]], ⟨0, 0, 0, 1⟩, [], 1, 1, 3, 0⟩ : Game).maze : Int) :=
  ((numDots_invariant [[46, 80, 46]]).2.2 ⟨[[32, 80, 46]], ⟨0, 0, 0, 1⟩, [], 1, 1, 3, 0⟩
    (Reachable.player (loadMaze fresh [[46, 80, 46]]) _ "LEFT" Reachable.start
      (by decide))).1

/-! ## Positions stay in bounds -/

theorem Inv_maze (R C : Nat) (s : Game) (h : Inv R C s) :
    s.maze ≠ [] ∧ cols s.maze = C ∧ rectangular s.maze := by
  obtain ⟨hlen, hrows, hp, _, _⟩ := h
  have hR : 0 < R := by
    obtain ⟨h0, h1, _, _⟩ := hp
    omega
  have hne : s.maze ≠ [] := by
    intro e
    rw [e] at hlen
    simp at hlen
    omega
  have hcols : cols s.maze = C := by
    cases hm : s.maze with
    | nil => exact absurd hm hne
    | cons first rest =>
      simp only [cols, List.headD_cons]
      exact hrows first (by rw [hm]; exact List.mem_cons_self _ _)
  exact ⟨hne, hcols, fun ln hmem => by rw [hcols]; exact hrows ln hmem⟩

theorem cleared_shape (maze : List (List Nat)) (r c : Int) (b C : Nat)
    (h : cellAt maze r c = some b) (hrows : ∀ ln ∈ maze, ln.length = C) :
    (cleared maze r.toNat c.toNat).length = maze.length ∧
    ∀ ln ∈ cleared maze r.toNat c.toNat, ln.length = C := by
  obtain ⟨_, _, ln0, hln, _⟩ := cellAt_data maze r c b h
  have hget : maze.getD r.toNat [] = ln0 := by
    simp [List.getD, hln]
  have hmem : ln0 ∈ maze := List.mem_iff_getElem?.2 ⟨_, hln⟩
  unfold cleared
  rw [hget]
  refine ⟨List.length_set _ _ _, ?_⟩
  intro ln hl
  rcases List.mem_or_eq_of_mem_set hl with h1 | h1
  · exact hrows ln h1
  · rw [h1, List.length_set]
    exact hrows ln0 hmem

/-- From a state within bounds `makeMove` returns, with a position within
bounds. -/
theorem makeMove_inBounds (R C : Nat) (s : Game) (h : Inv R C s) (r c : Int)
    (hb : inBounds R C r c) (dir : String) :
    ∃ p, makeMove s.maze r c dir = some p ∧ inBounds R C p.1 p.2 := by
  obtain ⟨hne, hcols, hrect⟩ := Inv_maze R C s h
  obtain ⟨hlen, _, _, _, _⟩ := h
  obtain ⟨h0, h1, h2, h3⟩ := hb
  have hm := makeMove_eq s.maze r c dir hne hrect h0 (by rw [hlen]; exact h1) h2
    (by rw [hcols]; exact h3)
  have hn := neighbour_inBounds R C r c dir h0 h1 h2 h3
  rw [hlen, hcols] at hm
  refine ⟨_, hm, ?_⟩
  split_ifs
  · exact ⟨h0, h1, h2, h3⟩
  · exact hn

theorem movePlayer_Inv (R C : Nat) (s : Game) (h : Inv R C s) (dir : String) :
    ∃ s1, movePlayer s dir = some s1 ∧ Inv R C s1 := by
  obtain ⟨p, hp, hpb⟩ := makeMove_inBounds R C s h s.player.row s.player.col h.2.2.1 dir
  obtain ⟨hne, hcols, hrect⟩ := Inv_maze R C s h
  obtain ⟨hlen, hrows, _, hstart, hghosts⟩ := h
  obtain ⟨b, hb⟩ := cellAt_some s.maze p.1 p.2 hrect hpb.1 (by rw [hlen]; exact hpb.2.1)
    hpb.2.2.1 (by rw [hcols]; exact hpb.2.2.2)
  obtain ⟨c1, c2⟩ := cleared_shape s.maze p.1 p.2 b C hb hrows
  refine ⟨_, movePlayer_eq s dir p b hp hb, ?_⟩
  split_ifs
  · exact ⟨c1.trans hlen, c2, hpb, hstart, hghosts⟩
  · exact ⟨c1.trans hlen, c2, hpb, hstart, hghosts⟩
  · exact ⟨hlen, hrows, hpb, hstart, hghosts⟩

theorem moveGhosts_inBounds (R C : Nat) (s : Game) (h : Inv R C s) (draws : Nat → Nat)
    (gs : List ghost) (i : Nat)
    (hgs : ∀ g ∈ gs, inBounds R C g.position.row g.position.col) :
    ∃ gs1, moveGhosts s.maze draws i gs = some gs1 ∧
      ∀ g ∈ gs1, inBounds R C g.position.row g.position.col := by
  induction gs generalizing i with
  | nil => exact ⟨[], rfl, by simp⟩
  | cons g gs ih =>
    obtain ⟨p, hp, hpb⟩ := makeMove_inBounds R C s h g.position.row g.position.col
      (hgs g (List.mem_cons_self _ _)) (drawDirection (draws i))
    obtain ⟨rest, hrest, hrb⟩ := ih (i + 1) (fun x hx => hgs x (List.mem_cons_of_mem _ hx))
    refine ⟨_, by simp only [moveGhosts, hp, Option.some_bind, hrest, Option.map_some']; rfl, ?_⟩
    intro x hx
    rcases List.mem_cons.1 hx with e | e
    · rw [e]; exact hpb
    · exact hrb x e

theorem moveGhost_Inv (R C : Nat) (s : Game) (h : Inv R C s) (draws : Nat → Nat) :
    ∃ s1, moveGhost s draws = some s1 ∧ Inv R C s1 := by
  obtain ⟨gs1, hgs, hb⟩ := moveGhosts_inBounds R C s h draws s.ghosts 0 h.2.2.2.2
  obtain ⟨hlen, hrows, hp, hstart, _⟩ := h
  refine ⟨{ s with ghosts := gs1 }, by simp only [moveGhost, hgs, Option.map_some'], ?_⟩
  exact ⟨hlen, hrows, hp, hstart, hb⟩

theorem collideOne_Inv (R C : Nat) (s : Game) (h : Inv R C s) (g : ghost) :
    Inv R C (collideOne s g) := by
  obtain ⟨hlen, hrows, hp, hstart, hghosts⟩ := h
  unfold collideOne
  by_cases h1 : g.position.row = s.player.row ∧ g.position.col = s.player.col
  · rw [if_pos h1]
    by_cases h2 : s.lives - 1 = 0
    · simp only [ne_eq, h2, not_true_eq_false, if_false]
      exact ⟨hlen, hrows, hp, hstart, hghosts⟩
    · simp only [ne_eq, h2, not_false_eq_true, if_true]
      exact ⟨hlen, hrows, hstart, hstart, hghosts⟩
  · rw [if_neg h1]
    exact ⟨hlen, hrows, hp, hstart, hghosts⟩

theorem collide_Inv (R C : Nat) (s : Game) (h : Inv R C s) : Inv R C (collide s) := by
  have key : ∀ (gs : List ghost) (t : Game), Inv R C t → Inv R C (gs.foldl collideOne t) := by
    intro gs
    induction gs with
    | nil => intro t ht; exact ht
    | cons g gs ih =>
      intro t ht
      rw [List.foldl_cons]
      exact ih _ (collideOne_Inv R C t ht g)
  exact key s.ghosts s h

theorem loadCell_Placed (R C row col : Nat) (s : Game) (char : Nat)
    (hr : row < R) (hc : col < C) (h : Placed R C s) :
    Placed R C (loadCell row col s char) := by
  have hin : inBounds R C (row : Int) (col : Int) :=
    ⟨Int.natCast_nonneg _, by omega, Int.natCast_nonneg _, by omega⟩
  obtain ⟨hp, hstart, hghosts⟩ := h
  unfold loadCell
  by_cases hP : char = chPlayer
  · rw [if_pos hP]
    exact ⟨hin, hin, hghosts⟩
  rw [if_neg hP]
  by_cases hG : char = chGhost
  · rw [if_pos hG]
    refine ⟨hp, hstart, ?_⟩
    intro g hg
    rcases List.mem_append.1 hg with e | e
    · exact hghosts g e
    · rw [List.mem_singleton.1 e]
      exact hin
  rw [if_neg hG]
  by_cases hD : char = chDot
  · rw [if_pos hD]
    exact ⟨hp, hstart, hghosts⟩
  · rw [if_neg hD]
    exact ⟨hp, hstart, hghosts⟩

theorem loadLine_Placed (R C row : Nat) (ln : List Nat) (col : Nat) (s : Game)
    (hr : row < R) (hc : col + ln.length ≤ C) (h : Placed R C s) :
    Placed R C (loadLine row col ln s) := by
  induction ln generalizing col s with
  | nil => exact h
  | cons ch rest ih =>
    simp only [List.length_cons] at hc
    rw [loadLine]
    exact ih (col + 1) _ (by omega) (loadCell_Placed R C row col s ch hr (by omega) h)

theorem loadRows_Placed (R C : Nat) (rows : List (List Nat)) (row : Nat) (s : Game)
    (hr : row + rows.length ≤ R) (hrows : ∀ ln ∈ rows, ln.length ≤ C) (h : Placed R C s) :
    Placed R C (loadRows row rows s) := by
  induction rows generalizing row s with
  | nil => exact h
  | cons ln rest ih =>
    simp only [List.length_cons] at hr
    rw [loadRows]
    exact ih (row + 1) _ (by omega) (fun x hx => hrows x (List.mem_cons_of_mem _ hx))
      (loadLine_Placed R C row ln 0 s (by omega)
        (by have := hrows ln (List.mem_cons_self _ _); omega) h)

/-- A non-empty rectangular maze with at least one column is loaded into a
state within bounds. -/
theorem loadMaze_Inv (lines : List (List Nat)) (hne : lines ≠ [])
    (hrect : rectangular lines) (hpos : 0 < cols lines) :
    Inv lines.length (cols lines) (loadMaze fresh lines) := by
  have hlen : 0 < lines.length := List.length_pos.2 hne
  have h0 : Placed lines.length (cols lines) { fresh with maze := [] ++ lines } := by
    have hz : inBounds lines.length (cols lines) 0 0 :=
      ⟨le_refl 0, by omega, le_refl 0, by omega⟩
    exact ⟨hz, hz, by intro g hg; simp [fresh] at hg⟩
  have h1 := loadRows_Placed lines.length (cols lines) ([] ++ lines) 0
    { fresh with maze := [] ++ lines } (by simp)
    (fun ln hl => by rw [List.nil_append] at hl; exact le_of_eq (hrect ln hl)) h0
  obtain ⟨hm, _⟩ := loadMaze_fresh lines
  refine ⟨by rw [hm], by rw [hm]; exact hrect, ?_⟩
  exact h1

/-- Every reachable state of a loaded non-empty rectangular maze with at least
one column is within bounds. -/
theorem Reachable_Inv (lines : List (List Nat)) (hne : lines ≠ [])
    (hrect : rectangular lines) (hpos : 0 < cols lines) (s : Game)
    (hs : Reachable (loadMaze fresh lines) s) : Inv lines.length (cols lines) s := by
  induction hs with
  | start => exact loadMaze_Inv lines hne hrect hpos
  | esc s _ ih => exact ih
  | player s s1 dir _ hm ih =>
    obtain ⟨s2, h2, hinv⟩ := movePlayer_Inv _ _ s ih dir
    rw [hm] at h2
    rw [Option.some.inj h2]
    exact hinv
  | ghosts s s1 draws _ hm ih =>
    obtain ⟨s2, h2, hinv⟩ := moveGhost_Inv _ _ s ih draws
    rw [hm] at h2
    rw [Option.some.inj h2]
    exact hinv
  | collision s _ ih => exact collide_Inv _ _ s ih

/-- From a state within bounds a whole tick returns, whatever the input and the
random draws. -/
theorem tick_total (R C : Nat) (s : Game) (h : Inv R C s) (input : Option String)
    (draws : Nat → Nat) : ∃ r, tick s input draws = some r := by
  have hesc : Inv R C { s with lives := 0 } := h
  have hghost : ∀ s1, Inv R C s1 → ∃ r,
      (moveGhost s1 draws).map (fun s2 => (collide s2, gameOver (collide s2))) = some r := by
    intro s1 i1
    obtain ⟨s2, e2, _⟩ := moveGhost_Inv R C s1 i1 draws
    exact ⟨_, by rw [e2]; rfl⟩
  cases input with
  | none =>
    obtain ⟨r, hr⟩ := hghost s h
    exact ⟨r, hr⟩
  | some inp =>
    by_cases he : inp = "ESC"
    · obtain ⟨s1, e1, i1⟩ := movePlayer_Inv R C _ hesc inp
      obtain ⟨r, hr⟩ := hghost s1 i1
      refine ⟨r, ?_⟩
      simp only [tick, if_pos he, e1, Option.some_bind]
      exact hr
    · obtain ⟨s1, e1, i1⟩ := movePlayer_Inv R C _ h inp
      obtain ⟨r, hr⟩ := hghost s1 i1
      refine ⟨r, ?_⟩
      simp only [tick, if_neg he, e1, Option.some_bind]
      exact hr

/-- C7, as stated, fails.  The maze file holding one empty line is loaded as
`[""]`: one row, rectangular, no column.  The player keeps its zero position
`(0, 0)`, which is not in `[0, 1) x [0, 0)`, and the first `movePlayer` indexes
`maze[0][0]` out of range. -/
theorem zero_width_maze_out_of_range :
    ([[]] : List (List Nat)) ≠ [] ∧ rectangular [[]] ∧
    Reachable (loadMaze fresh [[]]) (loadMaze fresh [[]]) ∧
    (loadMaze fresh [[]]).maze = [[]] ∧
    ¬ inBounds (loadMaze fresh [[]]).maze.length (cols (loadMaze fresh [[]]).maze)
        (loadMaze fresh [[]]).player.row (loadMaze fresh [[]]).player.col ∧
    cellAt (loadMaze fresh [[]]).maze (loadMaze fresh [[]]).player.row
        (loadMaze fresh [[]]).player.col = none ∧
    movePlayer (loadMaze fresh [[]]) "UP" = none ∧
    movePlayer (loadMaze fresh [[]]) "" = none := by
  refine ⟨by decide, by decide, Reachable.start, by decide, by decide, by decide,
    by decide, by decide⟩

/-- C7, amended.  Starting from a loaded state whose maze is non-empty,
rectangular and has at least one column, in every state reachable through the
ESC assignment, `movePlayer`, `moveGhost` and the collision loop the maze keeps
its row count and every row's length, and the player and every ghost hold a
position in `[0, rows) x [0, cols)`; `movePlayer`, `moveGhost` and a whole tick
return from such a state, so no index in `makeMove` or `movePlayer` is out of
range. -/
theorem positions_inBounds (lines : List (List Nat)) (hne : lines ≠ [])
    (hrect : rectangular lines) (hpos : 0 < cols lines) (s : Game)
    (hs : Reachable (loadMaze fresh lines) s) :
    s.maze.length = lines.length ∧ (∀ ln ∈ s.maze, ln.length = cols lines) ∧
    inBounds lines.length (cols lines) s.player.row s.player.col ∧
    (∀ g ∈ s.ghosts, inBounds lines.length (cols lines) g.position.row g.position.col) ∧
    (∃ b, cellAt s.maze s.player.row s.player.col = some b) ∧
    (∀ dir, ∃ s1, movePlayer s dir = some s1) ∧
    (∀ draws, ∃ s1, moveGhost s draws = some s1) ∧
    (∀ input draws, ∃ r, tick s input draws = some r) := by
  have hinv := Reachable_Inv lines hne hrect hpos s hs
  obtain ⟨_, hcols, hr⟩ := Inv_maze _ _ s hinv
  have hcell : ∃ b, cellAt s.maze s.player.row s.player.col = some b := by
    obtain ⟨p0, p1, p2, p3⟩ := hinv.2.2.1
    exact cellAt_some s.maze _ _ hr p0 (by rw [hinv.1]; exact p1) p2 (by rw [hcols]; exact p3)
  refine ⟨hinv.1, hinv.2.1, hinv.2.2.1, hinv.2.2.2.2, hcell, ?_, ?_, ?_⟩
  · intro dir
    obtain ⟨s1, h1, _⟩ := movePlayer_Inv _ _ s hinv dir
    exact ⟨s1, h1⟩
  · intro draws
    obtain ⟨s1, h1, _⟩ := moveGhost_Inv _ _ s hinv draws
    exact ⟨s1, h1⟩
  · intro input draws
    exact tick_total _ _ s hinv input draws

/-- Witness of C7 (amended) on the maze `"P.G."`: the loaded state is within
bounds, with one row of four columns. -/
theorem positions_inBounds_witness :
    (loadMaze fresh [[80, 46, 71, 46]]).maze.length = 1 ∧
    inBounds 1 4 (loadMaze fresh [[80, 46, 71, 46]]).player.row
      (loadMaze fresh [[80, 46, 71, 46]]).player.col :=
  ⟨(positions_inBounds [[80, 46, 71, 46]] (by decide) (by decide) (by decide) _
      Reachable.start).1,
   (positions_inBounds [[80, 46, 71, 46]] (by decide) (by decide) (by decide) _
      Reachable.start).2.2.1⟩

/-! ## `processPill` -/

theorem Timer.stop_fired (t : Timer) (now : Nat) (h : t.deadline ≤ now) : t.stop now = t := by
  unfold Timer.stop
  rw [if_neg (by omega)]

theorem pcs_set_lookup (pcs : List PC) (i j : Nat) (p q : PC) (hi : pcs[i]? = some p) :
    (pcs.set i q)[j]? = if j = i then some q else pcs[j]? := by
  have hlt : i < pcs.length := by
    rcases Nat.lt_or_ge i pcs.length with h | h
    · exact h
    · rw [List.getElem?_eq_none h] at hi; simp at hi
  rw [List.getElem?_set]
  by_cases hji : j = i
  · subst hji
    simp [hlt]
  · rw [if_neg (fun e => hji e.symm), if_neg hji]

/-- A property no goroutine has after goroutine `i` moved on to `q`, and which
`i` did not have before, no goroutine had before. -/
theorem pcs_set_transfer (P : PC → Bool) (pcs : List PC) (i : Nat) (p q : PC)
    (hi : pcs[i]? = some p) (hp : P p = false)
    (h : ∀ (j : Nat) (pc : PC), (pcs.set i q)[j]? = some pc → P pc = false) :
    ∀ (j : Nat) (pc : PC), pcs[j]? = some pc → P pc = false := by
  intro j pc hj
  by_cases hji : j = i
  · subst hji
    rw [hi] at hj
    rw [← Option.some.inj hj]
    exact hp
  · apply h j pc
    rw [pcs_set_lookup pcs i j p q hi, if_neg hji]
    exact hj

/-- After goroutine `i` moved on to `q`, which has the property, not every
goroutine lacks it. -/
theorem pcs_set_absurd (P : PC → Bool) (pcs : List PC) (i : Nat) (p q : PC)
    (hi : pcs[i]? = some p) (hq : P q = true)
    (h : ∀ (j : Nat) (pc : PC), (pcs.set i q)[j]? = some pc → P pc = false) : False := by
  have := h i q (by rw [pcs_set_lookup pcs i i p q hi, if_pos rfl])
  rw [hq] at this
  exact Bool.noConfusion this

/-- Mutual exclusion is kept by a step of goroutine `i` from `p` to `q` that
leaves the mutex to `i` exactly when `q` is inside. -/
theorem inside_set (pcs : List PC) (mux mux1 : Option Nat) (i : Nat) (p q : PC)
    (hi : pcs[i]? = some p)
    (hA : ∀ (j : Nat) (pc : PC), pcs[j]? = some pc → (pc.inside = true ↔ mux = some j))
    (hq : q.inside = true ↔ mux1 = some i)
    (hother : ∀ j : Nat, j ≠ i → (mux1 = some j ↔ mux = some j)) :
    ∀ (j : Nat) (pc : PC), (pcs.set i q)[j]? = some pc →
      (pc.inside = true ↔ mux1 = some j) := by
  intro j pc hj
  rw [pcs_set_lookup pcs i j p q hi] at hj
  by_cases hji : j = i
  · rw [if_pos hji] at hj
    rw [← Option.some.inj hj, hji]
    exact hq
  · rw [if_neg hji] at hj
    rw [hother j hji]
    exact hA j pc hj

/-- While goroutine `i` holds the mutex and is not at the receive, no goroutine
is at the receive. -/
theorem nobody_waiting (st : PillSys) (hinv : PillInv st) (i : Nat) (p : PC)
    (hi : st.pcs[i]? = some p) (hin : p.inside = true) (hw : p.waiting = false) :
    ∀ (j : Nat) (pc : PC), st.pcs[j]? = some pc → pc.waiting = false := by
  intro j pc hj
  by_cases hji : j = i
  · subst hji
    rw [hi] at hj
    rw [← Option.some.inj hj]
    exact hw
  · cases hpc : pc.waiting with
    | false => rfl
    | true =>
      exfalso
      have hpin : pc.inside = true := by
        cases pc <;> first | rfl | exact Bool.noConfusion hpc
      have h1 := (hinv.1 j pc hj).1 hpin
      have h2 := (hinv.1 i p hi).1 hin
      rw [h1] at h2
      exact hji (Option.some.inj h2)

/-- While the mutex is free, no goroutine is inside. -/
theorem nobody_inside (st : PillSys) (hinv : PillInv st) (hfree : st.pillMux = none) :
    ∀ (j : Nat) (pc : PC), st.pcs[j]? = some pc → pc.inside = false := by
  intro j pc hj
  cases hpc : pc.inside with
  | false => rfl
  | true =>
    have h1 := (hinv.1 j pc hj).1 hpc
    rw [hfree] at h1
    exact Option.noConfusion h1

/-- A step of a goroutine keeps the invariant. -/
theorem stepPill_inv (dur : Nat) (st st1 : PillSys) (i : Nat)
    (h : stepPill dur st i = some st1) (hinv : PillInv st) : PillInv st1 := by
  unfold stepPill at h
  cases hp : st.pcs[i]? with
  | none => rw [hp] at h; simp at h
  | some p =>
    rw [hp] at h
    have hlen : i < st.pcs.length := by
      rcases Nat.lt_or_ge i st.pcs.length with h1 | h1
      · exact h1
      · rw [List.getElem?_eq_none h1] at hp; simp at hp
    obtain ⟨hA, hA1, hB, hC, hD, hE⟩ := hinv
    have hinv : PillInv st := ⟨hA, hA1, hB, hC, hD, hE⟩
    cases p with
    | lock =>
      simp only at h
      by_cases hfree : st.pillMux = none
      · rw [if_pos hfree] at h
        have e := Option.some.inj h
        subst e
        refine ⟨?_, ?_, hB, hC, ?_, ?_⟩
        · exact inside_set st.pcs st.pillMux (some i) i PC.lock PC.setBlue hp hA
            (by simp [PC.inside])
            (fun j hj => by
              rw [hfree]
              constructor
              · intro e; exact absurd (Option.some.inj e).symm hj
              · intro e; exact Option.noConfusion e)
        · intro k hk
          rw [List.length_set, ← Option.some.inj hk]
          exact hlen
        · intro hno
          exact hD (pcs_set_transfer PC.waiting _ i PC.lock PC.setBlue hp rfl hno)
        · intro hno
          exact hE (pcs_set_transfer PC.blueZone _ i PC.lock PC.setBlue hp rfl hno)
      · rw [if_neg hfree] at h
        exact Option.noConfusion h
    | setBlue =>
      simp only at h
      have e := Option.some.inj h
      subst e
      have hmux := (hA i PC.setBlue hp).1 rfl
      refine ⟨?_, ?_, hB, hC, ?_, ?_⟩
      · exact inside_set st.pcs st.pillMux st.pillMux i PC.setBlue PC.stopOld hp hA
          (by simp [PC.inside, hmux]) (fun j _ => Iff.rfl)
      · intro k hk
        rw [List.length_set]
        exact hA1 k hk
      · intro hno
        exact hD (pcs_set_transfer PC.waiting _ i PC.setBlue PC.stopOld hp rfl hno)
      · intro hno
        exact absurd (pcs_set_absurd PC.blueZone _ i PC.setBlue PC.stopOld hp rfl hno) id
    | stopOld =>
      simp only at h
      have hmux := (hA i PC.stopOld hp).1 rfl
      have hnw := nobody_waiting st hinv i PC.stopOld hp rfl rfl
      cases hk : st.pillTimer with
      | none =>
        rw [hk] at h
        have e := Option.some.inj h
        subst e
        refine ⟨?_, ?_, hB, ?_, ?_, ?_⟩
        · exact inside_set st.pcs st.pillMux st.pillMux i PC.stopOld PC.newTimer hp hA
            (by simp [PC.inside, hmux]) (fun j _ => Iff.rfl)
        · intro k hk
          rw [List.length_set]
          exact hA1 k hk
        · intro k1 hk1
          exact Option.noConfusion hk1
        · intro _ k1 t1 hk1
          exact Option.noConfusion hk1
        · intro hno
          exact absurd (pcs_set_absurd PC.blueZone _ i PC.stopOld PC.newTimer hp rfl hno) id
      | some k =>
        rw [hk] at h
        simp only [Option.map_eq_some'] at h
        obtain ⟨t, ht, e⟩ := h
        subst e
        have hfired : t.deadline ≤ st.now := hD hnw k t hk ht
        rw [Timer.stop_fired t st.now hfired]
        refine ⟨?_, ?_, ?_, ?_, ?_, ?_⟩
        · exact inside_set st.pcs st.pillMux st.pillMux i PC.stopOld PC.newTimer hp hA
            (by simp [PC.inside, hmux]) (fun j _ => Iff.rfl)
        · intro k1 hk1
          rw [List.length_set]
          exact hA1 k1 hk1
        · intro t1 ht1
          rcases List.mem_or_eq_of_mem_set ht1 with e | e
          · exact hB t1 e
          · rw [e]; exact hB t (List.mem_iff_getElem?.2 ⟨k, ht⟩)
        · intro k1 hk1
          have ek : k1 = k := (Option.some.inj hk1).symm
          subst ek
          rw [List.length_set]
          exact hC k1 hk
        · intro _ k1 t1 hk1 ht1
          have ek : k1 = k := (Option.some.inj hk1).symm
          subst ek
          simp only at ht1
          rw [List.getElem?_set_eq_of_lt _ (hC k1 hk)] at ht1
          rw [← Option.some.inj ht1]
          exact hfired
        · intro hno
          exact absurd (pcs_set_absurd PC.blueZone _ i PC.stopOld PC.newTimer hp rfl hno) id
    | newTimer =>
      simp only at h
      have e := Option.some.inj h
      subst e
      have hmux := (hA i PC.newTimer hp).1 rfl
      refine ⟨?_, ?_, ?_, ?_, ?_, ?_⟩
      · exact inside_set st.pcs st.pillMux st.pillMux i PC.newTimer PC.recv hp hA
          (by simp [PC.inside, hmux]) (fun j _ => Iff.rfl)
      · intro k hk
        rw [List.length_set]
        exact hA1 k hk
      · intro t1 ht1
        rcases List.mem_append.1 ht1 with e | e
        · exact hB t1 e
        · rw [List.mem_singleton.1 e]
      · intro k1 hk1
        simp only at hk1
        rw [← Option.some.inj hk1]
        simp
      · intro hno
        exact absurd (pcs_set_absurd PC.waiting _ i PC.newTimer PC.recv hp rfl hno) id
      · intro hno
        exact absurd (pcs_set_absurd PC.blueZone _ i PC.newTimer PC.recv hp rfl hno) id
    | recv =>
      simp only [Option.bind_eq_some, Option.map_eq_some'] at h
      obtain ⟨⟨k0, t0⟩, ⟨k, hk, t, ht, ekt⟩, hcond⟩ := h
      have ek : k = k0 := (Prod.mk.inj ekt).1
      have et : t = t0 := (Prod.mk.inj ekt).2
      subst ek et
      simp only at hcond
      by_cases hc : t.deadline ≤ st.now ∧ t.stopped = false ∧ t.drained = false
      · rw [if_pos hc] at hcond
        have e := Option.some.inj hcond
        subst e
        have hmux := (hA i PC.recv hp).1 rfl
        refine ⟨?_, ?_, ?_, ?_, ?_, ?_⟩
        · exact inside_set st.pcs st.pillMux st.pillMux i PC.recv PC.stopOwn hp hA
            (by simp [PC.inside, hmux]) (fun j _ => Iff.rfl)
        · intro k1 hk1
          rw [List.length_set]
          exact hA1 k1 hk1
        · intro t1 ht1
          rcases List.mem_or_eq_of_mem_set ht1 with e | e
          · exact hB t1 e
          · rw [e]; exact hc.2.1
        · intro k1 hk1
          rw [List.length_set]
          exact hC k1 hk1
        · intro _ k1 t1 hk1 ht1
          simp only at hk1 ht1
          rw [hk] at hk1
          have ek : k1 = k := (Option.some.inj hk1).symm
          subst ek
          rw [List.getElem?_set_eq_of_lt _ (hC k1 hk)] at ht1
          rw [← Option.some.inj ht1]
          exact hc.1
        · intro hno
          exact absurd (pcs_set_absurd PC.blueZone _ i PC.recv PC.stopOwn hp rfl hno) id
      · rw [if_neg hc] at hcond
        exact Option.noConfusion hcond
    | stopOwn =>
      simp only [Option.map_eq_some', Option.bind_eq_some] at h
      obtain ⟨⟨k0, t0⟩, ⟨k, hk, t, ht, ekt⟩, e⟩ := h
      have ek : k = k0 := (Prod.mk.inj ekt).1
      have et : t = t0 := (Prod.mk.inj ekt).2
      subst ek et
      subst e
      have hmux := (hA i PC.stopOwn hp).1 rfl
      have hnw := nobody_waiting st hinv i PC.stopOwn hp rfl rfl
      have hfired : t.deadline ≤ st.now := hD hnw k t hk ht
      simp only
      rw [Timer.stop_fired t st.now hfired]
      refine ⟨?_, ?_, ?_, ?_, ?_, ?_⟩
      · exact inside_set st.pcs st.pillMux st.pillMux i PC.stopOwn PC.setNormal hp hA
          (by simp [PC.inside, hmux]) (fun j _ => Iff.rfl)
      · intro k1 hk1
        rw [List.length_set]
        exact hA1 k1 hk1
      · intro t1 ht1
        rcases List.mem_or_eq_of_mem_set ht1 with e | e
        · exact hB t1 e
        · rw [e]; exact hB t (List.mem_iff_getElem?.2 ⟨k, ht⟩)
      · intro k1 hk1
        rw [List.length_set]
        exact hC k1 hk1
      · intro _ k1 t1 hk1 ht1
        simp only at hk1 ht1
        rw [hk] at hk1
        have ek : k1 = k := (Option.some.inj hk1).symm
        subst ek
        rw [List.getElem?_set_eq_of_lt _ (hC k1 hk)] at ht1
        rw [← Option.some.inj ht1]
        exact hfired
      · intro hno
        exact absurd (pcs_set_absurd PC.blueZone _ i PC.stopOwn PC.setNormal hp rfl hno) id
    | setNormal =>
      simp only at h
      have e := Option.some.inj h
      subst e
      have hmux := (hA i PC.setNormal hp).1 rfl
      have hnw := nobody_waiting st hinv i PC.setNormal hp rfl rfl
      refine ⟨?_, ?_, hB, hC, ?_, ?_⟩
      · exact inside_set st.pcs st.pillMux st.pillMux i PC.setNormal PC.unlock hp hA
          (by simp [PC.inside, hmux]) (fun j _ => Iff.rfl)
      · intro k hk
        rw [List.length_set]
        exact hA1 k hk
      · intro _
        exact hD hnw
      · intro _ g hg
        simp only [updateGhosts, List.mem_map] at hg
        obtain ⟨g0, _, e⟩ := hg
        rw [← e]
    | unlock =>
      simp only at h
      have e := Option.some.inj h
      subst e
      have hmux := (hA i PC.unlock hp).1 rfl
      have hnw := nobody_waiting st hinv i PC.unlock hp rfl rfl
      refine ⟨?_, ?_, hB, hC, ?_, ?_⟩
      · exact inside_set st.pcs st.pillMux none i PC.unlock PC.done hp hA
          (by simp [PC.inside])
          (fun j hj => by
            rw [hmux]
            constructor
            · intro e; exact Option.noConfusion e
            · intro e; exact absurd (Option.some.inj e).symm hj)
      · intro k hk
        exact Option.noConfusion hk
      · intro _
        exact hD hnw
      · intro hno
        exact hE (pcs_set_transfer PC.blueZone _ i PC.unlock PC.done hp rfl hno)
    | done =>
      exact Option.noConfusion h

/-- Every action keeps the invariant. -/
theorem act_inv (dur : Nat) (st st1 : PillSys) (a : Act)
    (h : act dur st a = some st1) (hinv : PillInv st) : PillInv st1 := by
  cases a with
  | step i => exact stepPill_inv dur st st1 i h hinv
  | sleep d =>
    have e := Option.some.inj h
    subst e
    obtain ⟨hA, hA1, hB, hC, hD, hE⟩ := hinv
    refine ⟨hA, hA1, hB, hC, ?_, hE⟩
    intro hno k t hk ht
    exact Nat.le_trans (hD hno k t hk ht) (Nat.le_add_right _ _)
  | spawn =>
    have e := Option.some.inj h
    subst e
    obtain ⟨hA, hA1, hB, hC, hD, hE⟩ := hinv
    have hold : ∀ (j : Nat) (pc : PC), st.pcs[j]? = some pc →
        (st.pcs ++ [PC.lock])[j]? = some pc := by
      intro j pc hj
      have hlt : j < st.pcs.length := by
        rcases Nat.lt_or_ge j st.pcs.length with h1 | h1
        · exact h1
        · rw [List.getElem?_eq_none h1] at hj; simp at hj
      rw [List.getElem?_append_left hlt]
      exact hj
    refine ⟨?_, ?_, hB, hC, ?_, ?_⟩
    · intro j pc hj
      simp only at hj
      by_cases hlt : j < st.pcs.length
      · rw [List.getElem?_append_left hlt] at hj
        exact hA j pc hj
      · rw [List.getElem?_append_right (by omega)] at hj
        have hj0 : j - st.pcs.length = 0 := by
          rcases Nat.eq_zero_or_pos (j - st.pcs.length) with h0 | h0
          · exact h0
          · rw [List.getElem?_eq_none (by simp only [List.length_singleton]; omega)] at hj
            simp at hj
        rw [hj0] at hj
        simp only [List.getElem?_cons_zero, Option.some.injEq] at hj
        rw [← hj]
        constructor
        · intro e; exact Bool.noConfusion e
        · intro e
          have := hA1 j e
          omega
    · intro k hk
      have := hA1 k hk
      simp only [List.length_append, List.length_singleton]
      omega
    · intro hno
      exact hD (fun j pc hj => hno j pc (hold j pc hj))
    · intro hno
      exact hE (fun j pc hj => hno j pc (hold j pc hj))

/-- Every schedule keeps the invariant. -/
theorem runActs_inv (dur : Nat) (acts : List Act) (st st1 : PillSys)
    (h : runActs dur st acts = some st1) (hinv : PillInv st) : PillInv st1 := by
  induction acts generalizing st with
  | nil =>
    rw [← Option.some.inj h]
    exact hinv
  | cons a rest ih =>
    simp only [runActs, Option.bind_eq_some] at h
    obtain ⟨st2, h1, h2⟩ := h
    exact ih st2 h2 (act_inv dur st st2 a h1 hinv)

theorem start_inv (ghosts : List ghost) (hn : allNormal ghosts) :
    PillInv (PillSys.start ghosts) := by
  refine ⟨?_, ?_, ?_, ?_, ?_, ?_⟩
  · intro j pc hj
    simp [PillSys.start] at hj
  · intro i hi
    simp [PillSys.start] at hi
  · intro t ht
    simp [PillSys.start] at ht
  · intro k hk
    simp [PillSys.start] at hk
  · intro _ k t hk
    simp [PillSys.start] at hk
  · intro _
    exact hn

/-- How a step of a goroutine changes the timers: either every timer keeps its
deadline and `pillTimer` and the clock are unchanged, or a timer of deadline
`now + dur` is appended and `pillTimer` points to it, which happens only when
the timer `pillTimer` pointed to has reached its deadline. -/
theorem stepPill_timers (dur : Nat) (st st1 : PillSys) (i : Nat)
    (h : stepPill dur st i = some st1) (hinv : PillInv st) :
    (st1.timers.map Timer.deadline = st.timers.map Timer.deadline ∧
      st1.pillTimer = st.pillTimer ∧ st1.now = st.now) ∨
    (st1.timers = st.timers ++ [⟨st.now + dur, false, false⟩] ∧
      st1.pillTimer = some st.timers.length ∧ st1.now = st.now ∧
      ∀ (k : Nat) (t : Timer), st.pillTimer = some k → st.timers[k]? = some t →
        t.deadline ≤ st.now) := by
  have hset : ∀ (k : Nat) (t x : Timer), st.timers[k]? = some t →
      x.deadline = t.deadline →
      (st.timers.set k x).map Timer.deadline = st.timers.map Timer.deadline := by
    intro k t x ht hx
    apply List.ext_getElem?
    intro n
    rw [List.getElem?_map, List.getElem?_map, List.getElem?_set]
    by_cases hkn : k = n
    · subst hkn
      have hlt : k < st.timers.length := by
        rcases Nat.lt_or_ge k st.timers.length with h1 | h1
        · exact h1
        · rw [List.getElem?_eq_none h1] at ht; simp at ht
      rw [if_pos rfl, if_pos hlt, ht]
      simp [hx]
    · rw [if_neg hkn]
  unfold stepPill at h
  cases hp : st.pcs[i]? with
  | none => rw [hp] at h; simp at h
  | some p =>
    rw [hp] at h
    cases p with
    | lock =>
      simp only at h
      by_cases hfree : st.pillMux = none
      · rw [if_pos hfree] at h
        rw [← Option.some.inj h]
        exact Or.inl ⟨rfl, rfl, rfl⟩
      · rw [if_neg hfree] at h
        exact Option.noConfusion h
    | setBlue =>
      rw [← Option.some.inj h]
      exact Or.inl ⟨rfl, rfl, rfl⟩
    | stopOld =>
      simp only at h
      cases hk : st.pillTimer with
      | none =>
        rw [hk] at h
        rw [← Option.some.inj h]
        exact Or.inl ⟨rfl, rfl, rfl⟩
      | some k =>
        rw [hk] at h
        simp only [Option.map_eq_some'] at h
        obtain ⟨t, ht, e⟩ := h
        rw [← e]
        refine Or.inl ⟨hset k t _ ht ?_, rfl, rfl⟩
        unfold Timer.stop
        split <;> rfl
    | newTimer =>
      simp only at h
      rw [← Option.some.inj h]
      have hnw := nobody_waiting st hinv i PC.newTimer hp rfl rfl
      exact Or.inr ⟨rfl, rfl, rfl, hinv.2.2.2.2.1 hnw⟩
    | recv =>
      simp only [Option.bind_eq_some, Option.map_eq_some'] at h
      obtain ⟨⟨k0, t0⟩, ⟨k, hk, t, ht, ekt⟩, hcond⟩ := h
      have ek : k = k0 := (Prod.mk.inj ekt).1
      have et : t = t0 := (Prod.mk.inj ekt).2
      subst ek et
      simp only at hcond
      by_cases hc : t.deadline ≤ st.now ∧ t.stopped = false ∧ t.drained = false
      · rw [if_pos hc] at hcond
        rw [← Option.some.inj hcond]
        exact Or.inl ⟨hset k t _ ht rfl, rfl, rfl⟩
      · rw [if_neg hc] at hcond
        exact Option.noConfusion hcond
    | stopOwn =>
      simp only [Option.map_eq_some', Option.bind_eq_some] at h
      obtain ⟨⟨k0, t0⟩, ⟨k, hk, t, ht, ekt⟩, e⟩ := h
      have ek : k = k0 := (Prod.mk.inj ekt).1
      have et : t = t0 := (Prod.mk.inj ekt).2
      subst ek et
      rw [← e]
      refine Or.inl ⟨hset k t _ ht ?_, rfl, rfl⟩
      unfold Timer.stop
      split <;> rfl
    | setNormal =>
      rw [← Option.some.inj h]
      exact Or.inl ⟨rfl, rfl, rfl⟩
    | unlock =>
      rw [← Option.some.inj h]
      exact Or.inl ⟨rfl, rfl, rfl⟩
    | done =>
      exact Option.noConfusion h

/-- Timers whose deadlines are those of spaced timers are spaced. -/
theorem spaced_of_deadlines (dur : Nat) (ts ts1 : List Timer)
    (hmap : ts1.map Timer.deadline = ts.map Timer.deadline) (h : spaced dur ts) :
    spaced dur ts1 := by
  intro k t t1 hk hk1
  have e1 : (ts.map Timer.deadline)[k]? = some t.deadline := by
    rw [← hmap, List.getElem?_map, hk]; rfl
  have e2 : (ts.map Timer.deadline)[k + 1]? = some t1.deadline := by
    rw [← hmap, List.getElem?_map, hk1]; rfl
  rw [List.getElem?_map] at e1 e2
  cases ha : ts[k]? with
  | none => rw [ha] at e1; simp at e1
  | some a =>
    cases hb : ts[k + 1]? with
    | none => rw [hb] at e2; simp at e2
    | some b =>
      rw [ha] at e1
      rw [hb] at e2
      simp only [Option.map_some', Option.some.injEq] at e1 e2
      have := h k a b ha hb
      omega

/-- A step of a goroutine keeps the timers spaced and `pillTimer` on the last
timer. -/
theorem stepPill_spaced (dur : Nat) (st st1 : PillSys) (i : Nat)
    (h : stepPill dur st i = some st1) (hinv : PillInv st)
    (hlast : pointsToLast st) (hsp : spaced dur st.timers) :
    pointsToLast st1 ∧ spaced dur st1.timers := by
  rcases stepPill_timers dur st st1 i h hinv with ⟨hmap, hpt, _⟩ | ⟨htim, hpt, _, hfired⟩
  · have hlen : st1.timers.length = st.timers.length := by
      have := congrArg List.length hmap
      simpa using this
    refine ⟨?_, spaced_of_deadlines dur st.timers st1.timers hmap hsp⟩
    rcases hlast with ⟨h1, h2⟩ | ⟨k, h1, h2⟩
    · left
      refine ⟨by rw [hpt]; exact h1, ?_⟩
      rw [h2] at hlen
      exact List.length_eq_zero.1 hlen
    · right
      exact ⟨k, by rw [hpt]; exact h1, by rw [hlen]; exact h2⟩
  · refine ⟨Or.inr ⟨st.timers.length, hpt, by rw [htim]; simp⟩, ?_⟩
    intro k t t1 hk hk1
    rw [htim] at hk hk1
    by_cases hlt : k + 1 < st.timers.length
    · rw [List.getElem?_append_left (by omega)] at hk
      rw [List.getElem?_append_left hlt] at hk1
      exact hsp k t t1 hk hk1
    · by_cases heq : k + 1 = st.timers.length
      · rw [List.getElem?_append_left (by omega)] at hk
        rw [List.getElem?_append_right (by omega)] at hk1
        have h0 : k + 1 - st.timers.length = 0 := by omega
        rw [h0] at hk1
        simp only [List.getElem?_cons_zero, Option.some.injEq] at hk1
        rw [← hk1]
        rcases hlast with ⟨_, h2⟩ | ⟨k0, h1, h2⟩
        · rw [h2] at heq
          simp at heq
        · have ek : k0 = k := by omega
          subst ek
          have := hfired k0 t h1 hk
          simp only
          omega
      · rw [List.getElem?_eq_none (by simp only [List.length_append, List.length_singleton]; omega)] at hk1
        exact Option.noConfusion hk1

/-- Every schedule keeps the timers spaced and `pillTimer` on the last timer. -/
theorem runActs_spaced (dur : Nat) (acts : List Act) (st st1 : PillSys)
    (h : runActs dur st acts = some st1) (hinv : PillInv st)
    (hlast : pointsToLast st) (hsp : spaced dur st.timers) :
    pointsToLast st1 ∧ spaced dur st1.timers := by
  induction acts generalizing st with
  | nil =>
    rw [← Option.some.inj h]
    exact ⟨hlast, hsp⟩
  | cons a rest ih =>
    simp only [runActs, Option.bind_eq_some] at h
    obtain ⟨st2, h1, h2⟩ := h
    have hinv2 := act_inv dur st st2 a h1 hinv
    cases a with
    | spawn =>
      rw [← Option.some.inj h1] at h2 hinv2
      exact ih _ h2 hinv2 hlast hsp
    | sleep d =>
      rw [← Option.some.inj h1] at h2 hinv2
      exact ih _ h2 hinv2 hlast hsp
    | step i =>
      obtain ⟨hl2, hs2⟩ := stepPill_spaced dur st st2 i h1 hinv hlast hsp
      exact ih st2 h2 hinv2 hl2 hs2

/-- What `processPill` does under every schedule, whatever the number of pills
eaten and the times they are eaten at: no timer is ever stopped before it
fires; while a goroutine waits on its timer (line 369) no other goroutine can
take a step, so a later `processPill` stays blocked in `pillMux.Lock()`;
whenever `pillMux` is free, as it is when a later `processPill` gets past
`Lock`, every ghost is back to normal; and each timer's deadline is at least
`dur` later than the deadline of the timer before it, so the durations of two
pills add up. -/
theorem processPill_serialised (dur : Nat) (ghosts : List ghost) (hn : allNormal ghosts)
    (acts : List Act) (st : PillSys)
    (h : runActs dur (PillSys.start ghosts) acts = some st) :
    (∀ t ∈ st.timers, t.stopped = false) ∧
    (∀ i j : Nat, st.pcs[i]? = some PC.recv → j ≠ i → stepPill dur st j = none) ∧
    (st.pillMux = none → allNormal st.ghosts) ∧
    spaced dur st.timers := by
  have hinv := runActs_inv dur acts _ st h (start_inv ghosts hn)
  have hspaced := (runActs_spaced dur acts _ st h (start_inv ghosts hn)
    (Or.inl ⟨rfl, rfl⟩) (by intro k t t1 hk; simp [PillSys.start] at hk)).2
  obtain ⟨hA, hA1, hB, hC, hD, hE⟩ := hinv
  have hinv : PillInv st := ⟨hA, hA1, hB, hC, hD, hE⟩
  refine ⟨hB, ?_, ?_, hspaced⟩
  · intro i j hi hji
    have hmux : st.pillMux = some i := (hA i PC.recv hi).1 rfl
    have hout : ∀ pc, st.pcs[j]? = some pc → pc.inside = false := by
      intro pc hj
      cases hpc : pc.inside with
      | false => rfl
      | true =>
        have h1 := (hA j pc hj).1 hpc
        rw [hmux] at h1
        exact absurd (Option.some.inj h1).symm hji
    unfold stepPill
    cases hj : st.pcs[j]? with
    | none => rfl
    | some pc =>
      have ho := hout pc hj
      cases pc with
      | lock =>
        simp only
        rw [if_neg (by rw [hmux]; exact fun e => Option.noConfusion e)]
      | done => rfl
      | setBlue => exact Bool.noConfusion ho
      | stopOld => exact Bool.noConfusion ho
      | newTimer => exact Bool.noConfusion ho
      | recv => exact Bool.noConfusion ho
      | stopOwn => exact Bool.noConfusion ho
      | setNormal => exact Bool.noConfusion ho
      | unlock => exact Bool.noConfusion ho
  · intro hfree
    apply hE
    intro j pc hj
    have := nobody_inside st hinv hfree j pc hj
    cases pc <;> first | rfl | exact Bool.noConfusion this

/-- Witness of `processPill_serialised`: one pill eaten and its goroutine run up
to the receive, with a timer of 3 units. -/
theorem processPill_serialised_witness :
    ∀ t ∈ ([⟨3, false, false⟩] : List Timer), t.stopped = false :=
  (processPill_serialised 3 [⟨⟨0, 2, 0, 2⟩, GhostStatus.normal⟩] (by decide)
    [Act.spawn, Act.step 0, Act.step 0, Act.step 0, Act.step 0]
    ⟨0, some 0, some 0, [⟨3, false, false⟩], [⟨⟨0, 2, 0, 2⟩, GhostStatus.blue⟩], [PC.recv]⟩
    (by decide)).1

/-- C9, the code at the failing input.  The timer lasts 3 units, there is one
ghost, a pill is eaten at time 0 and a second one at time 1, while the first
`processPill` waits on its timer.  The second `processPill` cannot get past
`pillMux.Lock()` and the first cannot proceed before time 3.  At time 3 the
first one sets the ghost back to normal, its timer having fired without being
stopped; only then does the second one lock, set the ghost blue again and start
a timer, whose deadline is 6.  At time 4, which is 3 units after the second
pill, the ghost is blue and the second `processPill` still waits; the ghost is
back to normal at time 6, which is 2 x 3 units after the first pill. -/
theorem processPill_second_trigger_waits :
    runActs 3 (PillSys.start [⟨⟨0, 2, 0, 2⟩, GhostStatus.normal⟩])
        [Act.spawn, Act.step 0, Act.step 0, Act.step 0, Act.step 0, Act.sleep 1, Act.spawn] =
      some ⟨1, some 0, some 0, [⟨3, false, false⟩], [⟨⟨0, 2, 0, 2⟩, GhostStatus.blue⟩],
        [PC.recv, PC.lock]⟩ ∧
    stepPill 3 ⟨1, some 0, some 0, [⟨3, false, false⟩], [⟨⟨0, 2, 0, 2⟩, GhostStatus.blue⟩],
        [PC.recv, PC.lock]⟩ 1 = none ∧
    stepPill 3 ⟨1, some 0, some 0, [⟨3, false, false⟩], [⟨⟨0, 2, 0, 2⟩, GhostStatus.blue⟩],
        [PC.recv, PC.lock]⟩ 0 = none ∧
    runActs 3 ⟨1, some 0, some 0, [⟨3, false, false⟩], [⟨⟨0, 2, 0, 2⟩, GhostStatus.blue⟩],
        [PC.recv, PC.lock]⟩
        [Act.sleep 2, Act.step 0, Act.step 0, Act.step 0, Act.step 0] =
      some ⟨3, none, some 0, [⟨3, false, true⟩], [⟨⟨0, 2, 0, 2⟩, GhostStatus.normal⟩],
        [PC.done, PC.lock]⟩ ∧
    runActs 3 ⟨3, none, some 0, [⟨3, false, true⟩], [⟨⟨0, 2, 0, 2⟩, GhostStatus.normal⟩],
        [PC.done, PC.lock]⟩
        [Act.step 1, Act.step 1, Act.step 1, Act.step 1, Act.sleep 1] =
      some ⟨4, some 1, some 1, [⟨3, false, true⟩, ⟨6, false, false⟩],
        [⟨⟨0, 2, 0, 2⟩, GhostStatus.blue⟩], [PC.done, PC.recv]⟩ ∧
    stepPill 3 ⟨4, some 1, some 1, [⟨3, false, true⟩, ⟨6, false, false⟩],
        [⟨⟨0, 2, 0, 2⟩, GhostStatus.blue⟩], [PC.done, PC.recv]⟩ 1 = none ∧
    runActs 3 ⟨4, some 1, some 1, [⟨3, false, true⟩, ⟨6, false, false⟩],
        [⟨⟨0, 2, 0, 2⟩, GhostStatus.blue⟩], [PC.done, PC.recv]⟩
        [Act.sleep 2, Act.step 1, Act.step 1, Act.step 1, Act.step 1] =
      some ⟨6, none, some 1, [⟨3, false, true⟩, ⟨6, false, true⟩],
        [⟨⟨0, 2, 0, 2⟩, GhostStatus.normal⟩], [PC.done, PC.done]⟩ := by
  refine ⟨by decide, by decide, by decide, by decide, by decide, by decide, by decide⟩

end Pacman
